import Mathlib

/-!
Verification of the RFI Detection Engine of `nraoscistarter`.

The repository contains two near-identical detector pipelines:
`src/SDRSCI/services/rfi_detector.py` (called the *services variant* below)
and `src/rfi_detector.py` (the *top-level variant*).  Both provide a
real-valued ("fast") detection path and a complex-valued path, plus a
power-greedy deduplicator `_filter_nearby_detections` and a processing
coordinator `_process_recording`.

Numeric values that the Python code holds as floats are modelled as exact
rationals (`ℚ`) where the relevant code is pure arithmetic and comparisons,
and as reals (`ℝ`) where the code applies transcendental functions
(`log10`, `sqrt`, the FFT).
-/

namespace RFI

/-- One detection record, mirroring the dict built by both detectors
(`timestamp`, `frequency`, `power_level`, `bandwidth`, `confidence`, `type`).
The `type` key is called `itype` here. -/
structure Det (α : Type) where
  timestamp : α
  frequency : α
  power_level : α
  bandwidth : α
  confidence : α
  itype : String
deriving DecidableEq

instance {α : Type} [Zero α] : Inhabited (Det α) :=
  ⟨⟨0, 0, 0, 0, 0, "unknown"⟩⟩

section Dedup

variable {α : Type} [LinearOrderedField α]

/-- Python's `abs`, written so that it evaluates by kernel reduction. -/
def pyAbs (x : α) : α := if x < 0 then -x else x

/-- The duplicate test of `_filter_nearby_detections`:
`time_diff < time_threshold and freq_diff < freq_threshold`
(`d` is the candidate, `e` an already accepted detection). -/
def tooCloseB (tt ft : α) (d e : Det α) : Bool :=
  decide (pyAbs (d.timestamp - e.timestamp) < tt ∧ pyAbs (d.frequency - e.frequency) < ft)

/-- Insertion step of Python's stable `list.sort(key=power_level, reverse=True)`:
the new element goes after every element whose key is `≥` its own. -/
def insertByPower (d : Det α) : List (Det α) → List (Det α)
  | [] => [d]
  | e :: es => if e.power_level < d.power_level then d :: e :: es else e :: insertByPower d es

/-- Python's stable descending sort by `power_level` (`reverse=True` keeps
elements with equal keys in their original order). -/
def sortByPowerDesc (xs : List (Det α)) : List (Det α) :=
  xs.foldl (fun acc d => insertByPower d acc) []

/-- The greedy acceptance loop shared by both variants of
`_filter_nearby_detections`.  `filtered` is the accepted prefix; each
candidate is rejected iff it is `tooCloseB` to some accepted detection.
With `capped = true` (services variant) the loop stops as soon as the
accepted list reaches 50 entries. -/
def acceptLoop (tt ft : α) (capped : Bool) : List (Det α) → List (Det α) → List (Det α)
  | filtered, [] => filtered
  | filtered, d :: ds =>
    if filtered.any (tooCloseB tt ft d) then acceptLoop tt ft capped filtered ds
    else if capped ∧ 50 ≤ filtered.length + 1 then filtered ++ [d]
    else acceptLoop tt ft capped (filtered ++ [d]) ds

/-- Shared shape of both `_filter_nearby_detections` variants: return the
input unchanged when empty, otherwise sort by power descending and run the
greedy acceptance loop. -/
def dedupCore (tt ft : α) (capped : Bool) (xs : List (Det α)) : List (Det α) :=
  if xs.isEmpty then xs else acceptLoop tt ft capped [] (sortByPowerDesc xs)

/-- `RFIDetector._filter_nearby_detections` of the services variant
(`src/SDRSCI/services/rfi_detector.py`, lines 417-445): thresholds are the
hard-coded 0.1 s and 1000 Hz, and the output is capped at 50 entries.
Both detection paths of that file call this function. -/
def filter_nearby_detections (xs : List (Det α)) : List (Det α) :=
  dedupCore (1/10) 1000 true xs

/-- `RFIDetector._filter_nearby_detections` of the top-level variant
(`src/rfi_detector.py`, lines 346-368): thresholds are parameters with
defaults `time_threshold=0.1`, `freq_threshold=10000`, and there is no cap.
Both detection paths of that file call it with the defaults. -/
def filter_nearby_detections_v2 (xs : List (Det α)) (time_threshold freq_threshold : α) :
    List (Det α) :=
  dedupCore time_threshold freq_threshold false xs

/-- Non-increasing `power_level` order. -/
def powGe (a b : Det α) : Prop := b.power_level ≤ a.power_level

/-- Separation: two detections are not simultaneously within both thresholds. -/
def sep (tt ft : α) (a b : Det α) : Prop :=
  ¬ (|a.timestamp - b.timestamp| < tt ∧ |a.frequency - b.frequency| < ft)

end Dedup

/-! ## numpy statistics

`np.median`, `np.std`, `np.mean` and `np.max` as used on the flattened
spectrogram.  `np.std` is the population standard deviation
`sqrt(mean((x - mean(x))^2))`; `np.median` averages the two middle entries
of the sorted data when the length is even. -/

noncomputable def npMean (l : List ℝ) : ℝ := l.sum / l.length

noncomputable def npStd (l : List ℝ) : ℝ :=
  Real.sqrt (npMean (l.map (fun x => (x - npMean l) ^ 2)))

noncomputable def npMax : List ℝ → ℝ
  | [] => 0
  | x :: xs => xs.foldl max x

/-- Ascending insertion used to model the sort inside `np.median`. -/
noncomputable def insAsc (x : ℝ) : List ℝ → List ℝ
  | [] => [x]
  | y :: ys => if x ≤ y then x :: y :: ys else y :: insAsc x ys

noncomputable def sortAsc (l : List ℝ) : List ℝ :=
  l.foldl (fun acc x => insAsc x acc) []

noncomputable def npMedian (l : List ℝ) : ℝ :=
  let s := sortAsc l
  let n := l.length
  if n = 0 then 0
  else if n % 2 = 1 then s.getD (n / 2) 0
  else (s.getD (n / 2 - 1) 0 + s.getD (n / 2) 0) / 2

/-! ## Spectrogram scans (services variant, `src/SDRSCI/services/rfi_detector.py`)

The spectrogram is a function `db : ℕ → ℕ → ℝ` of `(frequency bin, time
frame)`, already converted to dB, together with the `frequencies` and
`times` axes as lists.  `flattenDb` is the row-major flattening that the
numpy reductions (`median`, `std`, `mean`, `max`) see. -/

noncomputable def flattenDb (db : ℕ → ℕ → ℝ) (nF nT : ℕ) : List ℝ :=
  ((List.range nF).map (fun f => (List.range nT).map (fun t => db f t))).flatten

/-- `np.where(spectrogram_db > threshold)` (lines 236): all index pairs above
threshold, in row-major order (frequency-bin major, like numpy). -/
noncomputable def peakIndices (db : ℕ → ℕ → ℝ) (nF nT : ℕ) (τ : ℝ) : List (ℕ × ℕ) :=
  ((List.range nF).map
    (fun f => ((List.range nT).filter (fun t => decide (τ < db f t))).map (fun t => (f, t)))).flatten

/-- `range(0, len(peak_indices[0]), 5)` (line 239): every 5th candidate. -/
def every5 {β : Type} : List β → List β
  | [] => []
  | x :: xs => x :: every5 (xs.drop 4)
termination_by l => l.length
decreasing_by
  simp only [List.length_drop, List.length_cons]
  omega

/-- `RFIDetector._classify_interference_fast` (lines 189-207). -/
noncomputable def classify_interference_fast (frequency power_level : ℝ) : String :=
  let freq_mhz := frequency / 1e6
  if 88 ≤ freq_mhz ∧ freq_mhz ≤ 108 then "FM_broadcast"
  else if 174 ≤ freq_mhz ∧ freq_mhz ≤ 216 then "TV_broadcast"
  else if 470 ≤ freq_mhz ∧ freq_mhz ≤ 790 then "UHF_TV"
  else if 2400 ≤ freq_mhz ∧ freq_mhz ≤ 2500 then "WiFi_ISM"
  else if -20 < power_level then "strong_local"
  else if -40 < power_level then "moderate"
  else "weak_signal"

/-- `RFIDetector._classify_interference` of the services variant
(lines 384-415). The `power_level` argument is accepted but unused there. -/
noncomputable def classify_interference (power_level bandwidth frequency : ℝ) : String :=
  let freq_mhz := frequency / 1e6
  let bw_khz := bandwidth / 1e3
  if 88 ≤ freq_mhz ∧ freq_mhz ≤ 108 ∧ 150 < bw_khz then "FM_broadcast"
  else if 174 ≤ freq_mhz ∧ freq_mhz ≤ 216 then "TV_broadcast"
  else if 2400 ≤ freq_mhz ∧ freq_mhz ≤ 2500 then "WiFi_ISM"
  else if freq_mhz = 144 ∨ freq_mhz = 432 ∨ freq_mhz = 1296 then "amateur_radio"
  else if (800 ≤ freq_mhz ∧ freq_mhz ≤ 900) ∨ (1800 ≤ freq_mhz ∧ freq_mhz ≤ 1900) then "cellular"
  else if bw_khz < 25 then "narrowband"
  else if 100 < bw_khz then "wideband"
  else "unknown"

/-- The `while left_idx > 0 and power_spectrum[left_idx] > threshold` walk of
`_estimate_bandwidth` (lines 366-367). -/
noncomputable def walkLeft (col : ℕ → ℝ) (thr : ℝ) : ℕ → ℕ
  | 0 => 0
  | i + 1 => if thr < col (i + 1) then walkLeft col thr i else i + 1

/-- The `while right_idx < len - 1 and power_spectrum[right_idx] > threshold`
walk (lines 369-370), with fuel `len - 1 - start` enforcing the index bound. -/
noncomputable def walkRightAux (col : ℕ → ℝ) (thr : ℝ) : ℕ → ℕ → ℕ
  | 0, i => i
  | fuel + 1, i => if thr < col i then walkRightAux col thr fuel (i + 1) else i

/-- `RFIDetector._estimate_bandwidth` of the services variant (lines 355-382):
−3 dB walk; on `right ≤ left` fall back to a single bin width, or 1000 Hz if
fewer than two bins exist (in Python the `frequencies[1]` lookup raises and
the `except` arm returns 1000.0). -/
noncomputable def estimate_bandwidth (col : ℕ → ℝ) (peak : ℕ) (freqs : List ℝ) : ℝ :=
  let thr := col peak - 3
  let left_idx := walkLeft col thr peak
  let right_idx := walkRightAux col thr (freqs.length - 1 - peak) peak
  if left_idx < right_idx then |freqs.getD right_idx 0 - freqs.getD left_idx 0|
  else if 1 < freqs.length then |freqs.getD 1 0 - freqs.getD 0 0|
  else 1000

/-- Flattened-spectrogram standard deviation used by the fast path. -/
noncomputable def fastStd (db : ℕ → ℕ → ℝ) (nF nT : ℕ) : ℝ := npStd (flattenDb db nF nT)

/-- `threshold = median_power + 2 * std_power` (lines 231-233). -/
noncomputable def fastThreshold (db : ℕ → ℕ → ℝ) (nF nT : ℕ) : ℝ :=
  npMedian (flattenDb db nF nT) + 2 * fastStd db nF nT

/-- The cells the fast path iterates over: every 5th entry of `np.where`. -/
noncomputable def fastCandidateCells (db : ℕ → ℕ → ℝ) (nF nT : ℕ) : List (ℕ × ℕ) :=
  every5 (peakIndices db nF nT (fastThreshold db nF nT))

/-- One detection dict of the fast loop body (lines 239-263). -/
noncomputable def mkDetFast (db : ℕ → ℕ → ℝ) (freqs times : List ℝ) (fs : ℝ) (w : ℕ)
    (τ σ : ℝ) (c : ℕ × ℕ) : Det ℝ :=
  let power := db c.1 c.2
  let freq := freqs.getD c.1 0
  { timestamp := times.getD c.2 0
    frequency := freq
    power_level := power
    bandwidth := fs / w
    confidence := min ((power - τ) / σ) 1
    itype := classify_interference_fast freq power }

/-- The raw detection list of `_detect_rfi_patterns_fast` before the
100-cap and deduplication (lines 230-263). -/
noncomputable def scanFast (db : ℕ → ℕ → ℝ) (freqs times : List ℝ) (fs : ℝ) (w : ℕ) :
    List (Det ℝ) :=
  (fastCandidateCells db freqs.length times.length).map
    (mkDetFast db freqs times fs w (fastThreshold db freqs.length times.length)
      (fastStd db freqs.length times.length))

/-- `if len(detections) > 100: sort desc; take 100` (lines 266-268). -/
noncomputable def cap100 (l : List (Det ℝ)) : List (Det ℝ) :=
  if 100 < l.length then (sortByPowerDesc l).take 100 else l

/-- `_detect_rfi_patterns_fast` from the dB spectrogram on (services variant,
lines 230-271): scan, cap at 100 by power, deduplicate. -/
noncomputable def detect_fast_from_db (db : ℕ → ℕ → ℝ) (freqs times : List ℝ)
    (fs : ℝ) (w : ℕ) : List (Det ℝ) :=
  filter_nearby_detections (cap100 (scanFast db freqs times fs w))

/-- Same stage of the top-level variant (`src/rfi_detector.py`, lines
179-220): identical scan and cap, but deduplication by
`_filter_nearby_detections` with defaults 0.1 s / 10000 Hz and no 50-cap. -/
noncomputable def detect_fast_from_db_v2 (db : ℕ → ℕ → ℝ) (freqs times : List ℝ)
    (fs : ℝ) (w : ℕ) : List (Det ℝ) :=
  filter_nearby_detections_v2 (cap100 (scanFast db freqs times fs w)) (1/10) 10000

/-- One detection dict of the complex loop body (lines 321-338). -/
noncomputable def mkDetComplex (db : ℕ → ℕ → ℝ) (freqsAll : List ℝ) (τ mx time : ℝ)
    (t f : ℕ) (freq : ℝ) : Det ℝ :=
  let power := db f t
  let bw := estimate_bandwidth (fun i => db i t) f freqsAll
  { timestamp := time
    frequency := freq
    power_level := power
    bandwidth := bw
    confidence := min 1 ((power - τ) / (mx - τ))
    itype := classify_interference power bw freq }

/-- Inner loop `for f_idx, freq in enumerate(frequencies)` of
`_detect_rfi_patterns_complex` (lines 318-342), returning the emitted
detections and the updated `detection_count`.  `if detection_count > 200:
break` fires after the increment, i.e. after the 201st emission. -/
noncomputable def innerScan (db : ℕ → ℕ → ℝ) (freqsAll : List ℝ) (τ mx time : ℝ) (t : ℕ) :
    List ℝ → ℕ → ℕ → List (Det ℝ) × ℕ
  | [], _, cnt => ([], cnt)
  | freq :: rest, f, cnt =>
    if τ < db f t then
      let d := mkDetComplex db freqsAll τ mx time t f freq
      if 200 < cnt + 1 then ([d], cnt + 1)
      else
        let r := innerScan db freqsAll τ mx time t rest (f + 1) (cnt + 1)
        (d :: r.1, r.2)
    else innerScan db freqsAll τ mx time t rest (f + 1) cnt

/-- Outer loop `for t_idx, time in enumerate(times)` (lines 317-345) with
its own `if detection_count > 200: break`. -/
noncomputable def outerScan (db : ℕ → ℕ → ℝ) (freqsAll : List ℝ) (τ mx : ℝ) :
    List ℝ → ℕ → ℕ → List (Det ℝ) × ℕ
  | [], _, cnt => ([], cnt)
  | time :: rest, t, cnt =>
    let r := innerScan db freqsAll τ mx time t freqsAll 0 cnt
    if 200 < r.2 then r
    else
      let r2 := outerScan db freqsAll τ mx rest (t + 1) r.2
      (r.1 ++ r2.1, r2.2)

/-- `threshold = np.mean(spectrogram_db) + 3 * np.std(spectrogram_db)`
(line 314). -/
noncomputable def complexThreshold (db : ℕ → ℕ → ℝ) (nF nT : ℕ) : ℝ :=
  npMean (flattenDb db nF nT) + 3 * npStd (flattenDb db nF nT)

/-- The raw candidate list of `_detect_rfi_patterns_complex` before
deduplication (lines 313-345). -/
noncomputable def scanComplexCandidates (db : ℕ → ℕ → ℝ) (freqs times : List ℝ) :
    List (Det ℝ) :=
  (outerScan db freqs (complexThreshold db freqs.length times.length)
    (npMax (flattenDb db freqs.length times.length)) times 0 0).1

/-- `_detect_rfi_patterns_complex` from the dB spectrogram on (services
variant): scan with the 200-count break, then deduplicate. -/
noncomputable def detect_complex_from_db (db : ℕ → ℕ → ℝ) (freqs times : List ℝ) :
    List (Det ℝ) :=
  filter_nearby_detections (scanComplexCandidates db freqs times)

/-! ## Spectral estimation

The window/hop bookkeeping of both paths, and the power spectrogram of the
complex path (lines 284-311) and of `scipy.signal.spectrogram` as called by
the fast path (lines 215-225).  The scipy call passes `noverlap =
window_size // 4`; scipy treats `noverlap` as the *overlap*, so the step
between frames is `nperseg - noverlap = window - window/4`, frames are
`floor((N - window)/step) + 1`, and frame times are window-centred:
`t[i] = (window/2 + i*step)/fs`.  Frequencies are the one-sided bins
`f*fs/window`.  Per-segment scipy applies constant detrending (subtract the
segment mean), a periodic Hann window, an FFT, `|.|²`, density scaling
`1/(fs*sum(win²))`, and doubles every bin except DC and Nyquist. -/

/-- `window_size = min(2048, len(audio_data) // 4)` (line 215). -/
def windowSizeFast (N : ℕ) : ℕ := min 2048 (N / 4)

/-- scipy frame step `nperseg - noverlap` where `noverlap = window // 4`. -/
def stepFast (N : ℕ) : ℕ := windowSizeFast N - windowSizeFast N / 4

/-- scipy frame count `floor((N - window)/step) + 1` (valid for `N ≥ window`). -/
def framesFast (N : ℕ) : ℕ := (N - windowSizeFast N) / stepFast N + 1

/-- `num_windows = (len(complex_data) - window_size) // hop_length + 1`
(line 291) with Python floor division on possibly negative ints; `ℤ`
division with the positive divisor 1024 is exactly floor division. -/
def numWindowsComplexZ (N : ℕ) : ℤ := ((N : ℤ) - 4096) / 1024 + 1

/-- The same count as a natural number, for `N ≥ 4096`. -/
def numWindowsComplex (N : ℕ) : ℕ := (N - 4096) / 1024 + 1

/-- Periodic Hann window (scipy `get_window('hann', w)`). -/
noncomputable def hannPeriodic (w n : ℕ) : ℝ :=
  1 / 2 - 1 / 2 * Real.cos (2 * Real.pi * n / w)

/-- Symmetric Hann window (`np.hanning(w)`, line 300). -/
noncomputable def hannSym (w n : ℕ) : ℝ :=
  1 / 2 - 1 / 2 * Real.cos (2 * Real.pi * n / (w - 1))

/-- Squared magnitude of one DFT bin of `x` over a window of length `w`. -/
noncomputable def dftPower (x : ℕ → ℂ) (w k : ℕ) : ℝ :=
  Complex.normSq (∑ n in Finset.range w,
    x n * Complex.exp (-(2 * (Real.pi : ℂ) * Complex.I * k * n) / w))

/-- Mean of the `w` samples starting at `start` (scipy constant detrend). -/
noncomputable def segMean (audio : ℕ → ℝ) (start w : ℕ) : ℝ :=
  (∑ n in Finset.range w, audio (start + n)) / w

/-- One cell of the scipy power spectrogram of the fast path. -/
noncomputable def specFastPower (audio : ℕ → ℝ) (fs : ℝ) (N f t : ℕ) : ℝ :=
  let w := windowSizeFast N
  let start := t * stepFast N
  let seg : ℕ → ℂ := fun n => (((audio (start + n) - segMean audio start w) * hannPeriodic w n : ℝ) : ℂ)
  let p := dftPower seg w f / (fs * ∑ n in Finset.range w, hannPeriodic w n ^ 2)
  if f = 0 ∨ 2 * f = w then p else 2 * p

/-- dB conversion with clipping of the fast path (line 228):
`np.clip(10*np.log10(power + 1e-10), -100, 50)`. -/
noncomputable def fastDb (audio : ℕ → ℝ) (N : ℕ) (fs : ℝ) : ℕ → ℕ → ℝ :=
  fun f t => max (-100) (min 50 (10 * Real.logb 10 (specFastPower audio fs N f t + 1e-10)))

/-- One-sided scipy frequency axis of the fast path. -/
noncomputable def freqsFast (N : ℕ) (fs : ℝ) : List ℝ :=
  (List.range (windowSizeFast N / 2 + 1)).map (fun (f : ℕ) => (f : ℝ) * fs / windowSizeFast N)

/-- Window-centred scipy time axis of the fast path:
`t[i] = (nperseg/2 + i*step)/fs` with Python true division, so for an odd
window the frame centres are half-integral. -/
noncomputable def timesFast (N : ℕ) (fs : ℝ) : List ℝ :=
  (List.range (framesFast N)).map
    (fun (i : ℕ) => ((windowSizeFast N : ℝ) / 2 + (i : ℝ) * stepFast N) / fs)

/-- `RFIDetector._detect_rfi_patterns_fast` (lines 209-276). -/
noncomputable def detect_rfi_patterns_fast (audio : ℕ → ℝ) (N : ℕ) (fs : ℝ) :
    List (Det ℝ) :=
  detect_fast_from_db (fastDb audio N fs) (freqsFast N fs) (timesFast N fs) fs (windowSizeFast N)

/-- One cell of the complex-path power spectrogram (lines 294-305):
Hann-window the segment, FFT, `fftshift` (bin `f` reads FFT bin
`(f + 2048) % 4096`), squared magnitude. -/
noncomputable def specComplexPower (data : ℕ → ℂ) (t f : ℕ) : ℝ :=
  dftPower (fun n => data (t * 1024 + n) * ((hannSym 4096 n : ℝ) : ℂ)) 4096 ((f + 2048) % 4096)

/-- dB conversion of the complex path (line 308), no clipping. -/
noncomputable def complexDb (data : ℕ → ℂ) : ℕ → ℕ → ℝ :=
  fun f t => 10 * Real.logb 10 (specComplexPower data t f + 1e-10)

/-- `np.fft.fftshift(np.fft.fftfreq(4096, 1/fs))` (lines 288-289). -/
noncomputable def freqsComplex (fs : ℝ) : List ℝ :=
  (List.range 4096).map (fun (k : ℕ) => ((k : ℝ) - 2048) * fs / 4096)

/-- `times = np.arange(num_windows) * hop_length / sample_rate` (line 311). -/
noncomputable def timesComplex (numW : ℕ) (fs : ℝ) : List ℝ :=
  (List.range numW).map (fun (i : ℕ) => (i : ℝ) * 1024 / fs)

/-- Raw candidates of `_detect_rfi_patterns_complex` from a sample buffer.
For `N < 4096` Python either raises inside `np.zeros` (negative frame
count, caught by the `except` arm returning `[]`) or builds a 0-frame
spectrogram whose scan emits nothing; both give `[]`. -/
noncomputable def complexRawCandidates (data : ℕ → ℂ) (N : ℕ) (fs : ℝ) : List (Det ℝ) :=
  if N < 4096 then []
  else scanComplexCandidates (complexDb data) (freqsComplex fs)
    (timesComplex (numWindowsComplex N) fs)

/-- `RFIDetector._detect_rfi_patterns_complex` (lines 278-353). -/
noncomputable def detect_rfi_patterns_complex (data : ℕ → ℂ) (N : ℕ) (fs : ℝ) :
    List (Det ℝ) :=
  filter_nearby_detections (complexRawCandidates data N fs)

/-! ## Processing coordinator (`RFIDetector._process_recording`, services
variant, lines 22-119)

The database and socket collaborators are abstracted into a `RunEnv`:
whether a `ProcessingQueue` row exists for the recording, whether the
`Recording` row exists, whether the sample file parses
(`_analyze_audio_file` catches its own exceptions and returns `[]` for an
unreadable file, lines 150-152), which detections analysis yields, and
whether the final `db.session.commit()` raises.  `statusHistory` records
the successive assignments to `queue_item.status` (starting from
`pending`); `persisted` holds the detections actually committed
(`db.session.add` alone persists nothing — in the failure arm with a queue
row present, the `commit()` in the `except` block also commits the pending
adds and the `processed` flag, which the model reproduces); `events` are
the `socketio.emit` calls in order. -/

inductive QStatus
  | pending
  | processing
  | completed
  | failed
deriving DecidableEq

inductive NotifyEvent
  | started
  | progress (count : ℕ)
  | completedEv (count : ℕ) (rfi : Bool)
  | failedEv
deriving DecidableEq

structure RunEnv where
  queueExists : Bool
  recordingExists : Bool
  fileReadable : Bool
  fileDetections : List (Det ℚ)
  finalCommitRaises : Bool

structure RunResult where
  statusHistory : List QStatus
  persisted : List (Det ℚ)
  processedPersisted : Bool
  events : List NotifyEvent
deriving DecidableEq

/-- `RFIDetector._analyze_audio_file` (lines 121-152): any parse failure is
caught (lines 150-152) and yields `[]`; a readable file yields the
detections of the appropriate detection path (abstracted into the
environment). -/
def analyze_audio_file (env : RunEnv) : List (Det ℚ) :=
  if env.fileReadable then env.fileDetections else []

/-- The `detection_count % 10 == 0` progress emissions of the save loop
(lines 66-77). -/
def progressEvents (n : ℕ) : List NotifyEvent :=
  (List.range n).filterMap
    (fun i => if (i + 1) % 10 = 0 then some (NotifyEvent.progress (i + 1)) else none)

/-- `RFIDetector._process_recording` (lines 22-119). -/
def process_recording (env : RunEnv) : RunResult :=
  let hist1 := if env.queueExists then [QStatus.pending, QStatus.processing] else [QStatus.pending]
  let ev1 : List NotifyEvent := if env.queueExists then [NotifyEvent.started] else []
  if env.recordingExists = false then
    -- `raise ValueError(...)` (line 45) caught by the except arm (103-119)
    if env.queueExists then
      { statusHistory := hist1 ++ [QStatus.failed]
        persisted := []
        processedPersisted := false
        events := ev1 ++ [NotifyEvent.failedEv] }
    else
      { statusHistory := hist1, persisted := [], processedPersisted := false, events := ev1 }
  else
    let dets := analyze_audio_file env
    let evs := ev1 ++ progressEvents dets.length
    let hist2 := if env.queueExists then hist1 ++ [QStatus.completed] else hist1
    if env.finalCommitRaises then
      -- the except arm refetches the queue row; without one it does nothing
      if env.queueExists then
        { statusHistory := hist2 ++ [QStatus.failed]
          persisted := dets
          processedPersisted := true
          events := evs ++ [NotifyEvent.failedEv] }
      else
        { statusHistory := hist2, persisted := [], processedPersisted := false, events := evs }
    else
      { statusHistory := hist2
        persisted := dets
        processedPersisted := true
        events := evs ++ [NotifyEvent.completedEv dets.length (decide (dets ≠ []))] }

/-! ## Concrete inputs used by counterexamples and witnesses -/

/-- A recording with a queue row whose sample file cannot be parsed. -/
def ce1Env : RunEnv :=
  { queueExists := true, recordingExists := true, fileReadable := false,
    fileDetections := [], finalCommitRaises := false }

/-- A recording without a queue row, with a readable file yielding one
detection. -/
def ce10Env : RunEnv :=
  { queueExists := false, recordingExists := true, fileReadable := true,
    fileDetections := [⟨0, 0, 0, 0, 0, "unknown"⟩], finalCommitRaises := false }

/-- Two detections at the same time, 5000 Hz apart. -/
def ce3A : Det ℚ := ⟨0, 0, 10, 0, 0, "unknown"⟩

def ce3B : Det ℚ := ⟨0, 5000, 5, 0, 0, "unknown"⟩

/-- 51 detections, pairwise at least 1 s apart, in descending power order. -/
def ce4Input : List (Det ℚ) :=
  (List.range 51).map (fun (k : ℕ) => ⟨(k : ℚ), 0, 100 - (k : ℚ), 0, 0, "unknown"⟩)

/-- A dB spectrogram with one frequency row and 2022 time frames, 202 of
which hold power 1 and the rest 0; its mean is 101/1011 and
`mean + 3*std < 1`, so exactly the 202 early cells pass the threshold. -/
def ce2Db : ℕ → ℕ → ℝ := fun _ t => if t < 202 then 1 else 0

def ce2Freqs : List ℝ := [0]

def ce2Times : List ℝ := List.replicate 2022 0

section DedupProofs

variable {α : Type} [LinearOrderedField α]

lemma pyAbs_eq_abs (x : α) : pyAbs x = |x| := by
  unfold pyAbs
  by_cases h : x < 0
  · rw [if_pos h, abs_of_neg h]
  · rw [if_neg h, abs_of_nonneg (le_of_not_lt h)]

lemma sep_symm {tt ft : α} {a b : Det α} (h : sep tt ft a b) : sep tt ft b a := by
  unfold sep at *
  rwa [abs_sub_comm b.timestamp, abs_sub_comm b.frequency]

lemma insertByPower_perm (d : Det α) (l : List (Det α)) :
    List.Perm (insertByPower d l) (d :: l) := by
  induction l with
  | nil => exact List.Perm.refl _
  | cons e es ih =>
    unfold insertByPower
    by_cases h : e.power_level < d.power_level
    · simp [h]
    · simp only [h, if_false]
      exact ((ih.cons e).trans (List.Perm.swap d e es))

lemma sortByPowerDesc_perm (xs : List (Det α)) : List.Perm (sortByPowerDesc xs) xs := by
  suffices h : ∀ (l acc : List (Det α)),
      List.Perm (l.foldl (fun acc d => insertByPower d acc) acc) (acc ++ l) by
    simpa using h xs []
  intro l
  induction l with
  | nil => intro acc; simp
  | cons d ds ih =>
    intro acc
    have step : (d :: ds).foldl (fun acc d => insertByPower d acc) acc
        = ds.foldl (fun acc d => insertByPower d acc) (insertByPower d acc) := rfl
    rw [step]
    refine (ih _).trans ?_
    refine (List.Perm.append_right ds (insertByPower_perm d acc)).trans ?_
    exact List.perm_middle.symm

lemma insertByPower_sorted {l : List (Det α)} (d : Det α) (h : l.Pairwise powGe) :
    (insertByPower d l).Pairwise powGe := by
  induction l with
  | nil => simp [insertByPower, List.pairwise_singleton]
  | cons e es ih =>
    rcases List.pairwise_cons.mp h with ⟨he, hes⟩
    unfold insertByPower
    by_cases hc : e.power_level < d.power_level
    · simp only [hc, if_true]
      refine List.pairwise_cons.mpr ⟨?_, h⟩
      intro b hb
      rcases List.mem_cons.mp hb with rfl | hb
      · exact le_of_lt hc
      · exact le_trans (he b hb) (le_of_lt hc)
    · simp only [hc, if_false]
      refine List.pairwise_cons.mpr ⟨?_, ih hes⟩
      intro b hb
      have hb' := (insertByPower_perm d es).mem_iff.mp hb
      rcases List.mem_cons.mp hb' with rfl | hb'
      · exact le_of_not_lt hc
      · exact he b hb'

lemma sortByPowerDesc_sorted (xs : List (Det α)) :
    (sortByPowerDesc xs).Pairwise powGe := by
  suffices h : ∀ (l acc : List (Det α)), acc.Pairwise powGe →
      (l.foldl (fun acc d => insertByPower d acc) acc).Pairwise powGe by
    exact h xs [] List.Pairwise.nil
  intro l
  induction l with
  | nil => intro acc h; simpa using h
  | cons d ds ih =>
    intro acc h
    exact ih _ (insertByPower_sorted d h)

lemma insertByPower_of_ge {l : List (Det α)} (d : Det α)
    (h : ∀ a ∈ l, ¬ a.power_level < d.power_level) :
    insertByPower d l = l ++ [d] := by
  induction l with
  | nil => rfl
  | cons e es ih =>
    have he : ¬ e.power_level < d.power_level := h e (List.mem_cons_self e es)
    unfold insertByPower
    simp only [he, if_false, List.cons_append, List.cons.injEq, true_and]
    exact ih fun a ha => h a (List.mem_cons_of_mem e ha)

lemma sortByPowerDesc_of_sorted {xs : List (Det α)} (h : xs.Pairwise powGe) :
    sortByPowerDesc xs = xs := by
  suffices key : ∀ (l acc : List (Det α)), (acc ++ l).Pairwise powGe →
      l.foldl (fun acc d => insertByPower d acc) acc = acc ++ l by
    simpa using key xs [] (by simpa using h)
  intro l
  induction l with
  | nil => intro acc _; simp
  | cons d ds ih =>
    intro acc hall
    have hd : ∀ a ∈ acc, ¬ a.power_level < d.power_level := by
      intro a ha
      have : powGe a d := by
        have := (List.pairwise_append.mp hall).2.2
        exact this a ha d (List.mem_cons_self d ds)
      exact not_lt.mpr this
    have step : (d :: ds).foldl (fun acc d => insertByPower d acc) acc
        = ds.foldl (fun acc d => insertByPower d acc) (insertByPower d acc) := rfl
    rw [step, insertByPower_of_ge d hd, ih (acc ++ [d]) (by simpa using hall)]
    simp

lemma acceptLoop_sublist (tt ft : α) (capped : Bool) :
    ∀ (rest filtered : List (Det α)),
      ∃ s, acceptLoop tt ft capped filtered rest = filtered ++ s ∧ s.Sublist rest := by
  intro rest
  induction rest with
  | nil => intro filtered; exact ⟨[], by simp [acceptLoop]⟩
  | cons d ds ih =>
    intro filtered
    unfold acceptLoop
    by_cases h1 : filtered.any (tooCloseB tt ft d) = true
    · simp only [h1, if_true]
      obtain ⟨s, hs, hsub⟩ := ih filtered
      exact ⟨s, hs, hsub.cons d⟩
    · simp only [h1, if_false]
      by_cases h2 : capped = true ∧ 50 ≤ filtered.length + 1
      · simp only [if_pos h2]
        exact ⟨[d], rfl, by simp⟩
      · simp only [if_neg h2]
        obtain ⟨s, hs, hsub⟩ := ih (filtered ++ [d])
        refine ⟨d :: s, by simpa using hs, hsub.cons₂ d⟩

lemma acceptLoop_pairwise (tt ft : α) (capped : Bool) :
    ∀ (rest filtered : List (Det α)), filtered.Pairwise (sep tt ft) →
      (acceptLoop tt ft capped filtered rest).Pairwise (sep tt ft) := by
  intro rest
  induction rest with
  | nil => intro filtered h; simpa [acceptLoop] using h
  | cons d ds ih =>
    intro filtered h
    unfold acceptLoop
    by_cases h1 : filtered.any (tooCloseB tt ft d) = true
    · simp only [h1, if_true]; exact ih filtered h
    · have hsep : ∀ e ∈ filtered, sep tt ft e d := by
        intro e he
        have hb : ¬ (tooCloseB tt ft d e = true) := by
          intro hc
          exact absurd (List.any_eq_true.mpr ⟨e, he, hc⟩) (by simpa using h1)
        have hde : sep tt ft d e := by
          intro hc
          apply hb
          apply decide_eq_true
          simpa [pyAbs_eq_abs] using hc
        exact sep_symm hde
      have hpw : (filtered ++ [d]).Pairwise (sep tt ft) := by
        rw [List.pairwise_append]
        exact ⟨h, List.pairwise_singleton _ _, fun a ha b hb => by
          rcases List.mem_singleton.mp hb with rfl
          exact hsep a ha⟩
      simp only [h1, if_false]
      by_cases h2 : capped = true ∧ 50 ≤ filtered.length + 1
      · simp only [if_pos h2]; exact hpw
      · simp only [if_neg h2]; exact ih _ hpw

lemma acceptLoop_length_le (tt ft : α) (c : Bool) (hc : c = true) :
    ∀ (rest filtered : List (Det α)), filtered.length < 50 →
      (acceptLoop tt ft c filtered rest).length ≤ 50 := by
  intro rest
  induction rest with
  | nil => intro filtered h; simpa [acceptLoop] using le_of_lt h
  | cons d ds ih =>
    intro filtered h
    unfold acceptLoop
    by_cases h1 : filtered.any (tooCloseB tt ft d) = true
    · simp only [h1, if_true]; exact ih filtered h
    · simp only [h1, Bool.false_eq_true, if_false]
      by_cases h2 : c = true ∧ 50 ≤ filtered.length + 1
      · rw [if_pos h2]
        have : (filtered ++ [d]).length = filtered.length + 1 := by simp
        omega
      · rw [if_neg h2]
        have hlt : filtered.length + 1 < 50 := by
          rcases not_and_or.mp h2 with hcon | hcon
          · exact absurd hc hcon
          · omega
        have := ih (filtered ++ [d]) (by simpa using hlt)
        simpa using this

lemma acceptLoop_accept_all (tt ft : α) (capped : Bool) :
    ∀ (rest filtered : List (Det α)),
      rest.Pairwise (sep tt ft) →
      (∀ d ∈ rest, ∀ e ∈ filtered, sep tt ft e d) →
      (capped = true → filtered.length + rest.length ≤ 50) →
      acceptLoop tt ft capped filtered rest = filtered ++ rest := by
  intro rest
  induction rest with
  | nil => intro filtered _ _ _; simp [acceptLoop]
  | cons d ds ih =>
    intro filtered hpw hsep hcap
    have hnot : filtered.any (tooCloseB tt ft d) = false := by
      rw [List.any_eq_false]
      intro e he
      have hde := sep_symm (hsep d (List.mem_cons_self d ds) e he)
      intro hcontra
      exact hde (by simpa [pyAbs_eq_abs] using of_decide_eq_true hcontra)
    unfold acceptLoop
    simp only [hnot, Bool.false_eq_true, if_false]
    rcases List.pairwise_cons.mp hpw with ⟨hd, hds⟩
    by_cases h2 : capped = true ∧ 50 ≤ filtered.length + 1
    · simp only [if_pos h2]
      have hlen := hcap h2.1
      have : ds = [] := by
        have : filtered.length + (ds.length + 1) ≤ 50 := by simpa using hlen
        have : ds.length = 0 := by omega
        exact List.eq_nil_of_length_eq_zero this
      subst this
      simp
    · simp only [if_neg h2]
      have hsep' : ∀ x ∈ ds, ∀ e ∈ filtered ++ [d], sep tt ft e x := by
        intro x hx e he
        rcases List.mem_append.mp he with he | he
        · exact hsep x (List.mem_cons_of_mem d hx) e he
        · rcases List.mem_singleton.mp he with rfl
          exact hd x hx
      have hcap' : capped = true → (filtered ++ [d]).length + ds.length ≤ 50 := by
        intro hc
        have := hcap hc
        simp only [List.length_append, List.length_singleton]
        simp only [List.length_cons] at this
        omega
      rw [ih (filtered ++ [d]) hds hsep' hcap']
      simp

lemma dedupCore_sublist_sorted (tt ft : α) (c : Bool) (xs : List (Det α)) :
    (dedupCore tt ft c xs).Sublist (sortByPowerDesc xs) := by
  unfold dedupCore
  by_cases hx : xs.isEmpty
  · have : xs = [] := List.isEmpty_iff.mp hx
    simp [hx, this, sortByPowerDesc]
  · simp only [hx, Bool.false_eq_true, if_false]
    obtain ⟨s, hs, hsub⟩ := acceptLoop_sublist tt ft c (sortByPowerDesc xs) []
    rw [hs]
    simpa using hsub

lemma dedupCore_sorted (tt ft : α) (c : Bool) (xs : List (Det α)) :
    (dedupCore tt ft c xs).Pairwise powGe :=
  (sortByPowerDesc_sorted xs).sublist (dedupCore_sublist_sorted tt ft c xs)

lemma mem_dedupCore (tt ft : α) (c : Bool) {xs : List (Det α)} {d : Det α}
    (h : d ∈ dedupCore tt ft c xs) : d ∈ xs :=
  (sortByPowerDesc_perm xs).mem_iff.mp ((dedupCore_sublist_sorted tt ft c xs).mem h)

lemma dedupCore_pairwise_sep (tt ft : α) (c : Bool) (xs : List (Det α)) :
    (dedupCore tt ft c xs).Pairwise (sep tt ft) := by
  unfold dedupCore
  by_cases hx : xs.isEmpty
  · have : xs = [] := List.isEmpty_iff.mp hx
    simp [hx, this]
  · simp only [hx, Bool.false_eq_true, if_false]
    exact acceptLoop_pairwise tt ft c (sortByPowerDesc xs) [] List.Pairwise.nil

lemma dedupCore_length_le_50 (tt ft : α) (xs : List (Det α)) :
    (dedupCore tt ft true xs).length ≤ 50 := by
  unfold dedupCore
  by_cases hx : xs.isEmpty
  · have : xs = [] := List.isEmpty_iff.mp hx
    simp [hx, this]
  · simp only [hx, Bool.false_eq_true, if_false]
    exact acceptLoop_length_le tt ft true rfl (sortByPowerDesc xs) [] (by simp)

lemma dedupCore_length_le_input (tt ft : α) (c : Bool) (xs : List (Det α)) :
    (dedupCore tt ft c xs).length ≤ xs.length := by
  have h1 := (dedupCore_sublist_sorted tt ft c xs).length_le
  have h2 := (sortByPowerDesc_perm xs).length_eq
  omega

lemma dedupCore_idem (tt ft : α) (c : Bool)
    (hcap : c = true → ∀ ys : List (Det α), (dedupCore tt ft c ys).length ≤ 50)
    (xs : List (Det α)) :
    dedupCore tt ft c (dedupCore tt ft c xs) = dedupCore tt ft c xs := by
  set out := dedupCore tt ft c xs with hout
  by_cases hempty : out.isEmpty
  · have : out = [] := List.isEmpty_iff.mp hempty
    rw [this]
    simp [dedupCore]
  · have hsorted : out.Pairwise powGe := by rw [hout]; exact dedupCore_sorted tt ft c xs
    have hpw : out.Pairwise (sep tt ft) := by rw [hout]; exact dedupCore_pairwise_sep tt ft c xs
    unfold dedupCore
    simp only [hempty, Bool.false_eq_true, if_false]
    rw [sortByPowerDesc_of_sorted hsorted]
    rw [acceptLoop_accept_all tt ft c out [] hpw (by simp) ?hlen]
    · simp
    case hlen =>
      intro hc
      have := hcap hc xs
      rw [← hout] at this
      simpa using this

lemma dedupCore_head_strongest (tt ft : α) (c : Bool) {xs : List (Det α)} (hxs : xs ≠ []) :
    dedupCore tt ft c xs ≠ [] ∧
    (dedupCore tt ft c xs).headI ∈ xs ∧
    ∀ y ∈ xs, y.power_level ≤ (dedupCore tt ft c xs).headI.power_level := by
  have hsne : sortByPowerDesc xs ≠ [] := by
    intro h
    have := (sortByPowerDesc_perm xs).length_eq
    rw [h] at this
    exact hxs (List.eq_nil_of_length_eq_zero this.symm)
  obtain ⟨d0, rest, hrest⟩ := List.exists_cons_of_ne_nil hsne
  have hne : xs.isEmpty = false := by
    cases xs with
    | nil => exact absurd rfl hxs
    | cons a l => rfl
  have hfirst : acceptLoop tt ft c [] (d0 :: rest) = acceptLoop tt ft c [d0] rest := by
    have h50 : ¬ ((c = true) ∧ 50 ≤ List.length ([] : List (Det α)) + 1) := by
      rintro ⟨-, h⟩
      simp at h
    simp only [acceptLoop, List.any_nil, Bool.false_eq_true, if_false, if_neg h50,
      List.nil_append]
  have hstep : dedupCore tt ft c xs = acceptLoop tt ft c [d0] rest := by
    unfold dedupCore
    rw [hne, hrest]
    simpa using hfirst
  obtain ⟨s, hs, hsub⟩ := acceptLoop_sublist tt ft c rest [d0]
  have hform : dedupCore tt ft c xs = d0 :: s := by
    rw [hstep, hs]; rfl
  have hd0mem : d0 ∈ xs := by
    have : d0 ∈ sortByPowerDesc xs := by rw [hrest]; exact List.mem_cons_self d0 rest
    exact (sortByPowerDesc_perm xs).mem_iff.mp this
  refine ⟨by rw [hform]; exact List.cons_ne_nil d0 s, ?_, ?_⟩
  · rw [hform]; simpa using hd0mem
  · intro y hy
    rw [hform]
    simp only [List.headI_cons]
    have hymem : y ∈ sortByPowerDesc xs := (sortByPowerDesc_perm xs).mem_iff.mpr hy
    rw [hrest] at hymem
    rcases List.mem_cons.mp hymem with rfl | hymem
    · exact le_refl _
    · have := (sortByPowerDesc_sorted xs)
      rw [hrest] at this
      exact (List.pairwise_cons.mp this).1 y hymem

end DedupProofs

lemma cap100_length_le (l : List (Det ℝ)) : (cap100 l).length ≤ 100 := by
  unfold cap100
  by_cases h : 100 < l.length
  · rw [if_pos h]
    have := (sortByPowerDesc_perm l).length_eq
    simp [this]
  · rw [if_neg h]
    omega

/-! ## Claims C3, C8, C9 and the dedupe half of C4 -/

/-- C3 (counterexample): the claim asserts that the complex path never
outputs two detections within 0.1 s and 10000 Hz of each other.  The
services variant's complex path deduplicates with
`filter_nearby_detections`, whose frequency threshold is 1000 Hz, so two
equal-time detections 5000 Hz apart are both kept. -/
theorem c3_counterexample :
    filter_nearby_detections [ce3A, ce3B] = [ce3A, ce3B] ∧
    |ce3A.timestamp - ce3B.timestamp| < 1 / 10 ∧
    |ce3A.frequency - ce3B.frequency| < 10000 := by
  refine ⟨?_, by norm_num [ce3A, ce3B], by norm_num [ce3A, ce3B]⟩
  unfold filter_nearby_detections dedupCore
  norm_num [sortByPowerDesc, insertByPower, acceptLoop, tooCloseB, pyAbs, ce3A, ce3B]

/-- C3 (amended): deduplication never outputs two detections simultaneously
within 0.1 s and within the *variant's* frequency threshold — 1000 Hz in
the services variant (both detection paths) and the `freq_threshold`
parameter (default 10000 Hz) in the top-level variant (both paths) — and
acceptance is greedy in order of `power_level` descending with ties broken
by original order (the output is power-sorted). -/
theorem c3_amended {α : Type} [LinearOrderedField α] (xs : List (Det α)) (tt ft : α) :
    (filter_nearby_detections xs).Pairwise (sep (1/10) 1000) ∧
    (filter_nearby_detections xs).Pairwise powGe ∧
    (filter_nearby_detections_v2 xs tt ft).Pairwise (sep tt ft) ∧
    (filter_nearby_detections_v2 xs tt ft).Pairwise powGe :=
  ⟨dedupCore_pairwise_sep _ _ _ xs, dedupCore_sorted _ _ _ xs,
   dedupCore_pairwise_sep _ _ _ xs, dedupCore_sorted _ _ _ xs⟩

/-- C8: deduplication is idempotent, for both variants of
`_filter_nearby_detections`. -/
theorem c8_dedupe_idempotent {α : Type} [LinearOrderedField α]
    (xs : List (Det α)) (tt ft : α) :
    filter_nearby_detections (filter_nearby_detections xs) = filter_nearby_detections xs ∧
    filter_nearby_detections_v2 (filter_nearby_detections_v2 xs tt ft) tt ft
      = filter_nearby_detections_v2 xs tt ft := by
  constructor
  · exact dedupCore_idem _ _ _ (fun _ ys => dedupCore_length_le_50 _ _ ys) xs
  · exact dedupCore_idem _ _ _ (fun hc _ => by simp at hc) xs

/-- C9: on a non-empty input both deduplicators return a non-empty list
whose first element is an input detection of maximal `power_level` (the
strongest detection is always accepted), and the output is ordered by
`power_level` non-increasing. -/
theorem c9_strongest_kept {α : Type} [LinearOrderedField α]
    (xs : List (Det α)) (tt ft : α) (h : xs ≠ []) :
    (filter_nearby_detections xs ≠ [] ∧
      (filter_nearby_detections xs).headI ∈ xs ∧
      (∀ y ∈ xs, y.power_level ≤ (filter_nearby_detections xs).headI.power_level) ∧
      (filter_nearby_detections xs).Pairwise powGe) ∧
    (filter_nearby_detections_v2 xs tt ft ≠ [] ∧
      (filter_nearby_detections_v2 xs tt ft).headI ∈ xs ∧
      (∀ y ∈ xs, y.power_level ≤ (filter_nearby_detections_v2 xs tt ft).headI.power_level) ∧
      (filter_nearby_detections_v2 xs tt ft).Pairwise powGe) := by
  obtain ⟨h1, h2, h3⟩ := dedupCore_head_strongest (1/10 : α) 1000 true h
  obtain ⟨h4, h5, h6⟩ := dedupCore_head_strongest tt ft false h
  exact ⟨⟨h1, h2, h3, dedupCore_sorted _ _ _ xs⟩, ⟨h4, h5, h6, dedupCore_sorted _ _ _ xs⟩⟩

/-- C9 (witness): the guarantees at a concrete two-element input. -/
theorem c9_strongest_kept_witness :
    ([⟨0, 0, 3, 0, 0, "unknown"⟩, ⟨5, 9000, 7, 0, 0, "unknown"⟩] : List (Det ℚ)) ≠ [] ∧
    (filter_nearby_detections
        [(⟨0, 0, 3, 0, 0, "unknown"⟩ : Det ℚ), ⟨5, 9000, 7, 0, 0, "unknown"⟩] ≠ [] ∧
      (filter_nearby_detections
        [(⟨0, 0, 3, 0, 0, "unknown"⟩ : Det ℚ), ⟨5, 9000, 7, 0, 0, "unknown"⟩]).headI ∈
        [(⟨0, 0, 3, 0, 0, "unknown"⟩ : Det ℚ), ⟨5, 9000, 7, 0, 0, "unknown"⟩] ∧
      (∀ y ∈ [(⟨0, 0, 3, 0, 0, "unknown"⟩ : Det ℚ), ⟨5, 9000, 7, 0, 0, "unknown"⟩],
        y.power_level ≤ (filter_nearby_detections
          [(⟨0, 0, 3, 0, 0, "unknown"⟩ : Det ℚ), ⟨5, 9000, 7, 0, 0, "unknown"⟩]).headI.power_level) ∧
      (filter_nearby_detections
        [(⟨0, 0, 3, 0, 0, "unknown"⟩ : Det ℚ), ⟨5, 9000, 7, 0, 0, "unknown"⟩]).Pairwise powGe) ∧
    (filter_nearby_detections_v2
        [(⟨0, 0, 3, 0, 0, "unknown"⟩ : Det ℚ), ⟨5, 9000, 7, 0, 0, "unknown"⟩] (1/10) 10000 ≠ [] ∧
      (filter_nearby_detections_v2
        [(⟨0, 0, 3, 0, 0, "unknown"⟩ : Det ℚ), ⟨5, 9000, 7, 0, 0, "unknown"⟩] (1/10) 10000).headI ∈
        [(⟨0, 0, 3, 0, 0, "unknown"⟩ : Det ℚ), ⟨5, 9000, 7, 0, 0, "unknown"⟩] ∧
      (∀ y ∈ [(⟨0, 0, 3, 0, 0, "unknown"⟩ : Det ℚ), ⟨5, 9000, 7, 0, 0, "unknown"⟩],
        y.power_level ≤ (filter_nearby_detections_v2
          [(⟨0, 0, 3, 0, 0, "unknown"⟩ : Det ℚ), ⟨5, 9000, 7, 0, 0, "unknown"⟩]
          (1/10) 10000).headI.power_level) ∧
      (filter_nearby_detections_v2
        [(⟨0, 0, 3, 0, 0, "unknown"⟩ : Det ℚ), ⟨5, 9000, 7, 0, 0, "unknown"⟩]
        (1/10) 10000).Pairwise powGe) :=
  ⟨List.cons_ne_nil _ _,
    c9_strongest_kept
      [(⟨0, 0, 3, 0, 0, "unknown"⟩ : Det ℚ), ⟨5, 9000, 7, 0, 0, "unknown"⟩]
      (1/10) 10000 (List.cons_ne_nil _ _)⟩

/-- C4 (counterexample): the claim says post-deduplication output is capped
at 50 because acceptance stops at the cap.  The top-level variant's
deduplicator (the one its real-valued path calls) has no such cap: 51
mutually distant detections all survive. -/
theorem c4_counterexample :
    50 < (filter_nearby_detections_v2 ce4Input (1/10) 10000).length := by
  have hsorted : ce4Input.Pairwise powGe := by
    unfold ce4Input
    refine List.Pairwise.map _ ?_ (List.pairwise_lt_range 51)
    intro i j hij
    unfold powGe
    have : (i : ℚ) ≤ (j : ℚ) := by exact_mod_cast le_of_lt hij
    simp only
    linarith
  have hsep : ce4Input.Pairwise (sep (1/10 : ℚ) 10000) := by
    unfold ce4Input
    refine List.Pairwise.map _ ?_ (List.pairwise_lt_range 51)
    intro i j hij
    unfold sep
    rintro ⟨h1, -⟩
    have hij1 : (i : ℚ) + 1 ≤ (j : ℚ) := by exact_mod_cast hij
    simp only at h1
    rw [abs_sub_comm, abs_of_nonneg (by linarith)] at h1
    linarith
  have hne : ce4Input.isEmpty = false := by simp [ce4Input]
  have key : filter_nearby_detections_v2 ce4Input (1/10) 10000 = ce4Input := by
    unfold filter_nearby_detections_v2 dedupCore
    rw [hne]
    simp only [Bool.false_eq_true, if_false]
    rw [sortByPowerDesc_of_sorted hsorted,
      acceptLoop_accept_all (1/10 : ℚ) 10000 false ce4Input [] hsep (by simp)
        (fun hc => by simp at hc)]
    simp
  rw [key]
  simp [ce4Input]

/-- C4 (amended): in both variants the real path emits at most 100
detections before deduplication (top 100 by power when more candidates
exist).  After deduplication the services variant is capped at 50, while
the top-level variant is bounded only by its pre-deduplication count. -/
theorem c4_amended (db : ℕ → ℕ → ℝ) (freqs times : List ℝ) (fs : ℝ) (w : ℕ) :
    (cap100 (scanFast db freqs times fs w)).length ≤ 100 ∧
    (detect_fast_from_db db freqs times fs w).length ≤ 50 ∧
    (detect_fast_from_db_v2 db freqs times fs w).length ≤ 100 := by
  refine ⟨cap100_length_le _, dedupCore_length_le_50 _ _ _, ?_⟩
  calc (detect_fast_from_db_v2 db freqs times fs w).length
      ≤ (cap100 (scanFast db freqs times fs w)).length :=
        dedupCore_length_le_input _ _ _ _
    _ ≤ 100 := cap100_length_le _

/-! ## Claims C1 and C10: the processing coordinator -/

lemma progressEvents_mem {e : NotifyEvent} {n : ℕ} (h : e ∈ progressEvents n) :
    ∃ k, e = NotifyEvent.progress k := by
  unfold progressEvents at h
  obtain ⟨i, _, hsome⟩ := List.mem_filterMap.mp h
  by_cases hdi : (i + 1) % 10 = 0
  · rw [if_pos hdi] at hsome
    exact ⟨i + 1, (Option.some_inj.mp hsome).symm⟩
  · rw [if_neg hdi] at hsome
    cases hsome

/-- C1 (counterexample): for a recording whose sample file cannot be parsed
(`ce1Env`), the run does *not* fail: `_analyze_audio_file` catches the read
error and returns `[]` (lines 150-152), so the job status history is
`pending → processing → completed`, the notifications are one `started` and
one `completed` (no `failed`), and zero detections are persisted. -/
theorem c1_counterexample :
    (process_recording ce1Env).statusHistory
        = [QStatus.pending, QStatus.processing, QStatus.completed] ∧
    (process_recording ce1Env).events
        = [NotifyEvent.started, NotifyEvent.completedEv 0 false] ∧
    (process_recording ce1Env).persisted = [] := by
  refine ⟨?_, ?_, ?_⟩ <;> rfl

/-- C1 (amended): for every recording with a queue row whose sample file
cannot be parsed (and whose database commit succeeds), the run transitions
`Pending → Processing → Completed`, emits exactly one `started` and one
`completed` notification and no `failed` notification, and persists zero
detections; the recording is still marked processed. -/
theorem c1_amended (env : RunEnv) (hq : env.queueExists = true)
    (hr : env.recordingExists = true) (hf : env.fileReadable = false)
    (hc : env.finalCommitRaises = false) :
    (process_recording env).statusHistory
        = [QStatus.pending, QStatus.processing, QStatus.completed] ∧
    (process_recording env).events
        = [NotifyEvent.started, NotifyEvent.completedEv 0 false] ∧
    (process_recording env).persisted = [] ∧
    (process_recording env).processedPersisted = true := by
  unfold process_recording analyze_audio_file progressEvents
  rw [hq, hr, hf, hc]
  simp

/-- C1 (witness): the amended guarantees at the concrete environment. -/
theorem c1_amended_witness :
    (process_recording ce1Env).statusHistory
        = [QStatus.pending, QStatus.processing, QStatus.completed] ∧
    (process_recording ce1Env).events
        = [NotifyEvent.started, NotifyEvent.completedEv 0 false] ∧
    (process_recording ce1Env).persisted = [] ∧
    (process_recording ce1Env).processedPersisted = true :=
  c1_amended ce1Env rfl rfl rfl rfl

/-- C10: when no `ProcessingQueue` row exists but the recording does, the
run emits no `started` event, performs no queue-status transitions, and on
failure emits no `failed` event; on success it still persists the analyzed
detections, marks the recording processed, and emits a `completed` event
(so a completed notification occurs with no preceding started one). -/
theorem c10_no_queue_row (env : RunEnv) (hq : env.queueExists = false)
    (hr : env.recordingExists = true) :
    NotifyEvent.started ∉ (process_recording env).events ∧
    NotifyEvent.failedEv ∉ (process_recording env).events ∧
    (process_recording env).statusHistory = [QStatus.pending] ∧
    (env.finalCommitRaises = false →
      (process_recording env).persisted = analyze_audio_file env ∧
      (process_recording env).processedPersisted = true ∧
      (process_recording env).events
        = progressEvents (analyze_audio_file env).length
            ++ [NotifyEvent.completedEv (analyze_audio_file env).length
                  (decide (analyze_audio_file env ≠ []))]) := by
  have hnp : ∀ n : ℕ, NotifyEvent.started ∉ progressEvents n ∧
      NotifyEvent.failedEv ∉ progressEvents n := by
    intro n
    constructor <;> intro hmem <;> obtain ⟨k, hk⟩ := progressEvents_mem hmem <;> cases hk
  cases hcommit : env.finalCommitRaises with
  | true =>
    have hrun : process_recording env =
        { statusHistory := [QStatus.pending], persisted := [], processedPersisted := false,
          events := progressEvents (analyze_audio_file env).length } := by
      unfold process_recording
      rw [hq, hr, hcommit]
      simp
    rw [hrun]
    refine ⟨(hnp _).1, (hnp _).2, rfl, ?_⟩
    intro hfalse
    simp at hfalse
  | false =>
    have hrun : process_recording env =
        { statusHistory := [QStatus.pending], persisted := analyze_audio_file env,
          processedPersisted := true,
          events := progressEvents (analyze_audio_file env).length
            ++ [NotifyEvent.completedEv (analyze_audio_file env).length
                  (decide (analyze_audio_file env ≠ []))] } := by
      unfold process_recording
      rw [hq, hr, hcommit]
      simp
    rw [hrun]
    refine ⟨?_, ?_, rfl, fun _ => ⟨rfl, rfl, rfl⟩⟩
    · intro hmem
      rcases List.mem_append.mp hmem with h | h
      · exact (hnp _).1 h
      · exact NotifyEvent.noConfusion (List.mem_singleton.mp h)
    · intro hmem
      rcases List.mem_append.mp hmem with h | h
      · exact (hnp _).2 h
      · exact NotifyEvent.noConfusion (List.mem_singleton.mp h)

/-! ## Claim C2: the complex-path candidate cap -/

lemma innerScan_bound (db : ℕ → ℕ → ℝ) (fa : List ℝ) (τ mx time : ℝ) (t : ℕ) :
    ∀ (fr : List ℝ) (f cnt : ℕ), cnt ≤ 200 →
      cnt ≤ (innerScan db fa τ mx time t fr f cnt).2 ∧
      (innerScan db fa τ mx time t fr f cnt).2 ≤ 201 ∧
      (innerScan db fa τ mx time t fr f cnt).1.length
        = (innerScan db fa τ mx time t fr f cnt).2 - cnt := by
  intro fr
  induction fr with
  | nil =>
    intro f cnt h
    refine ⟨le_refl _, by simpa [innerScan] using Nat.le_succ_of_le h, by simp [innerScan]⟩
  | cons freq rest ih =>
    intro f cnt h
    simp only [innerScan]
    by_cases hc : τ < db f t
    · rw [if_pos hc]
      by_cases hb : 200 < cnt + 1
      · rw [if_pos hb]
        refine ⟨by omega, by omega, by simp⟩
      · rw [if_neg hb]
        obtain ⟨h1, h2, h3⟩ := ih (f + 1) (cnt + 1) (by omega)
        refine ⟨by omega, h2, ?_⟩
        simp only [List.length_cons, h3]
        omega
    · rw [if_neg hc]
      exact ih (f + 1) cnt h

lemma outerScan_bound (db : ℕ → ℕ → ℝ) (fa : List ℝ) (τ mx : ℝ) :
    ∀ (ts : List ℝ) (t cnt : ℕ), cnt ≤ 200 →
      cnt ≤ (outerScan db fa τ mx ts t cnt).2 ∧
      (outerScan db fa τ mx ts t cnt).2 ≤ 201 ∧
      (outerScan db fa τ mx ts t cnt).1.length
        = (outerScan db fa τ mx ts t cnt).2 - cnt := by
  intro ts
  induction ts with
  | nil =>
    intro t cnt h
    exact ⟨le_refl _, by simpa [outerScan] using Nat.le_succ_of_le h, by simp [outerScan]⟩
  | cons time rest ih =>
    intro t cnt h
    simp only [outerScan]
    obtain ⟨h1, h2, h3⟩ := innerScan_bound db fa τ mx time t fa 0 cnt h
    by_cases hb : 200 < (innerScan db fa τ mx time t fa 0 cnt).2
    · rw [if_pos hb]
      exact ⟨h1, h2, h3⟩
    · rw [if_neg hb]
      obtain ⟨h4, h5, h6⟩ := ih (t + 1) (innerScan db fa τ mx time t fa 0 cnt).2 (by omega)
      refine ⟨by omega, h5, ?_⟩
      simp only [List.length_append, h3, h6]
      omega

/-- C2 (amended): the complex-path scan of the services variant emits at
most 201 raw candidates before deduplication, for every spectrogram input
(`detection_count > 200` fires only after the 201st emission; later-scanned
cells are dropped, not the highest-power ones). -/
theorem c2_amended (db : ℕ → ℕ → ℝ) (freqs times : List ℝ) :
    (scanComplexCandidates db freqs times).length ≤ 201 := by
  unfold scanComplexCandidates
  obtain ⟨h1, h2, h3⟩ := outerScan_bound db freqs
    (complexThreshold db freqs.length times.length)
    (npMax (flattenDb db freqs.length times.length)) times 0 0 (by omega)
  omega

lemma range_map_sum (f : ℕ → ℝ) (n : ℕ) :
    ((List.range n).map f).sum = ∑ i in Finset.range n, f i := by
  induction n with
  | zero => simp
  | succ n ih => rw [List.range_succ, List.map_append, List.sum_append,
      Finset.sum_range_succ, ih]; simp

lemma filter_range_lt (m n : ℕ) (h : m ≤ n) :
    (Finset.range n).filter (fun i => i < m) = Finset.range m := by
  ext i
  simp only [Finset.mem_filter, Finset.mem_range]
  omega

lemma ce2_flat : flattenDb ce2Db 1 2022 = (List.range 2022).map (fun t => ce2Db 0 t) := by
  unfold flattenDb
  have h1 : List.range 1 = [0] := rfl
  rw [h1]
  simp

lemma ce2_mean : npMean (flattenDb ce2Db 1 2022) = 101 / 1011 := by
  unfold npMean
  rw [ce2_flat, range_map_sum]
  have hsum : ∑ t in Finset.range 2022, ce2Db 0 t = 202 := by
    unfold ce2Db
    rw [Finset.sum_ite, Finset.sum_const, Finset.sum_const_zero,
      filter_range_lt 202 2022 (by norm_num)]
    simp
  rw [hsum, List.length_map, List.length_range]
  norm_num

lemma ce2_var : npMean ((flattenDb ce2Db 1 2022).map
    (fun x => (x - npMean (flattenDb ce2Db 1 2022)) ^ 2)) = 91910 / 1022121 := by
  rw [ce2_mean]
  unfold npMean
  rw [ce2_flat, List.map_map, range_map_sum]
  have hsum : ∑ t in Finset.range 2022, ((fun x => (x - (101 / 1011 : ℝ)) ^ 2) ∘ fun t => ce2Db 0 t) t
      = 185842020 / 1022121 := by
    have hcong : ∀ t ∈ Finset.range 2022,
        ((fun x => (x - (101 / 1011 : ℝ)) ^ 2) ∘ fun t => ce2Db 0 t) t
          = if t < 202 then ((1 : ℝ) - 101 / 1011) ^ 2 else ((0 : ℝ) - 101 / 1011) ^ 2 := by
      intro t _
      simp only [Function.comp_apply]
      unfold ce2Db
      by_cases ht : t < 202
      · rw [if_pos ht, if_pos ht]
      · rw [if_neg ht, if_neg ht]
    rw [Finset.sum_congr rfl hcong, Finset.sum_ite, Finset.sum_const, Finset.sum_const,
      filter_range_lt 202 2022 (by norm_num)]
    have hcard : ((Finset.range 2022).filter (fun i => ¬ i < 202)).card = 1820 := by
      rw [Finset.filter_not, Finset.card_sdiff (Finset.filter_subset _ _),
        filter_range_lt 202 2022 (by norm_num)]
      simp
    rw [hcard, Finset.card_range]
    norm_num
  rw [hsum, List.length_map, List.length_range]
  norm_num

lemma ce2_threshold_lt_one : complexThreshold ce2Db 1 2022 < 1 := by
  unfold complexThreshold npStd
  rw [ce2_var, ce2_mean]
  have hsq : Real.sqrt (91910 / 1022121) < 910 / 3033 :=
    (Real.sqrt_lt' (by norm_num)).mpr (by norm_num)
  linarith

lemma ce2_threshold_nonneg : 0 ≤ complexThreshold ce2Db 1 2022 := by
  unfold complexThreshold npStd
  rw [ce2_mean]
  positivity

lemma ce2_inner (time : ℝ) (t cnt : ℕ) (ht : t < 202) :
    innerScan ce2Db ce2Freqs (complexThreshold ce2Db 1 2022)
        (npMax (flattenDb ce2Db 1 2022)) time t ce2Freqs 0 cnt
      = ([mkDetComplex ce2Db ce2Freqs (complexThreshold ce2Db 1 2022)
            (npMax (flattenDb ce2Db 1 2022)) time t 0 0], cnt + 1) := by
  have hcell : ce2Db 0 t = 1 := by
    unfold ce2Db
    rw [if_pos ht]
  have hcond : complexThreshold ce2Db 1 2022 < ce2Db 0 t := by
    rw [hcell]
    exact ce2_threshold_lt_one
  conv_lhs => rw [show ce2Freqs = [(0 : ℝ)] from rfl]
  simp only [innerScan]
  rw [if_pos hcond]
  by_cases hb : 200 < cnt + 1
  · rw [if_pos hb]
    rfl
  · rw [if_neg hb]
    rfl

lemma ce2_outer : ∀ (m k : ℕ), k + m = 201 → k ≤ 200 →
    (outerScan ce2Db ce2Freqs (complexThreshold ce2Db 1 2022)
        (npMax (flattenDb ce2Db 1 2022)) (List.replicate (2022 - k) (0 : ℝ)) k k).2 = 201 ∧
    (outerScan ce2Db ce2Freqs (complexThreshold ce2Db 1 2022)
        (npMax (flattenDb ce2Db 1 2022)) (List.replicate (2022 - k) (0 : ℝ)) k k).1.length
      = m := by
  intro m
  induction m with
  | zero =>
    intro k hk hk2
    exact absurd hk (by omega)
  | succ m ih =>
    intro k hk hk2
    have hrep : 2022 - k = (2021 - k) + 1 := by omega
    rw [hrep, List.replicate_succ]
    simp only [outerScan]
    rw [ce2_inner 0 k k (by omega)]
    dsimp only
    by_cases hb : 200 < k + 1
    · rw [if_pos hb]
      have hk200 : k = 200 := by omega
      subst hk200
      exact ⟨rfl, by simp; omega⟩
    · rw [if_neg hb]
      have h2 : 2021 - k = 2022 - (k + 1) := by omega
      rw [h2]
      obtain ⟨ha, hb'⟩ := ih (k + 1) (by omega) (by omega)
      refine ⟨ha, ?_⟩
      rw [List.length_append, hb']
      simp only [List.length_singleton]
      omega

/-- C2 (counterexample): the claim caps raw complex-path candidates at 200,
but the `detection_count > 200` break fires only after the 201st emission: a
1 × 2022 spectrogram with 202 above-threshold cells yields exactly 201 raw
candidates before deduplication. -/
theorem c2_counterexample :
    (scanComplexCandidates ce2Db ce2Freqs ce2Times).length = 201 := by
  unfold scanComplexCandidates
  have hlen : ce2Freqs.length = 1 := rfl
  have htlen : ce2Times.length = 2022 := by
    rw [show ce2Times = List.replicate 2022 (0 : ℝ) from rfl, List.length_replicate]
  rw [hlen, htlen]
  have hrep : ce2Times = List.replicate (2022 - 0) (0 : ℝ) := by
    rw [Nat.sub_zero]
    rfl
  rw [hrep]
  exact (ce2_outer 201 0 (by omega) (by omega)).2

/-! ## Statistics of constant data, and membership lemmas for the scans -/

lemma sum_allEq {l : List ℝ} {c : ℝ} (h : ∀ x ∈ l, x = c) : l.sum = c * l.length := by
  induction l with
  | nil => simp
  | cons x xs ih =>
    have hx : x = c := h x (List.mem_cons_self x xs)
    have hxs := ih fun y hy => h y (List.mem_cons_of_mem x hy)
    rw [List.sum_cons, hx, hxs, List.length_cons]
    push_cast
    ring

lemma npMean_allEq {l : List ℝ} {c : ℝ} (hne : l ≠ []) (h : ∀ x ∈ l, x = c) :
    npMean l = c := by
  unfold npMean
  rw [sum_allEq h]
  have hlen : (l.length : ℝ) ≠ 0 := by
    simp only [ne_eq, Nat.cast_eq_zero, List.length_eq_zero]
    exact hne
  field_simp

lemma npStd_allEq {l : List ℝ} {c : ℝ} (h : ∀ x ∈ l, x = c) : npStd l = 0 := by
  unfold npStd
  rcases eq_or_ne l [] with rfl | hne
  · simp [npMean]
  · have hmap : ∀ y ∈ l.map (fun x => (x - npMean l) ^ 2), y = 0 := by
      intro y hy
      obtain ⟨x, hx, rfl⟩ := List.mem_map.mp hy
      rw [h x hx, npMean_allEq hne h]
      ring
    rw [npMean_allEq (by simpa using hne) hmap]
    exact Real.sqrt_zero

lemma sum_nonneg_zero {l : List ℝ} (h0 : ∀ x ∈ l, 0 ≤ x) (hs : l.sum = 0) :
    ∀ x ∈ l, x = 0 := by
  induction l with
  | nil => simp
  | cons y ys ih =>
    have hy : 0 ≤ y := h0 y (List.mem_cons_self y ys)
    have hys : 0 ≤ ys.sum := List.sum_nonneg fun x hx => h0 x (List.mem_cons_of_mem y hx)
    rw [List.sum_cons] at hs
    have hy0 : y = 0 := by linarith
    have hsum0 : ys.sum = 0 := by linarith
    intro x hx
    rcases List.mem_cons.mp hx with rfl | hx
    · exact hy0
    · exact ih (fun z hz => h0 z (List.mem_cons_of_mem y hz)) hsum0 x hx

lemma npStd_zero_allEq {l : List ℝ} (h : npStd l = 0) : ∀ x ∈ l, x = npMean l := by
  intro x hx
  have hne : l ≠ [] := List.ne_nil_of_mem hx
  unfold npStd at h
  have hnn : ∀ y ∈ l.map (fun x => (x - npMean l) ^ 2), 0 ≤ y := by
    intro y hy
    obtain ⟨z, _, rfl⟩ := List.mem_map.mp hy
    positivity
  have hmean0 : npMean (l.map (fun x => (x - npMean l) ^ 2)) = 0 := by
    have hge : 0 ≤ npMean (l.map (fun x => (x - npMean l) ^ 2)) := by
      unfold npMean
      apply div_nonneg (List.sum_nonneg hnn)
      positivity
    have hle := Real.sqrt_eq_zero'.mp h
    linarith
  have hsum0 : (l.map (fun x => (x - npMean l) ^ 2)).sum = 0 := by
    unfold npMean at hmean0
    rcases div_eq_zero_iff.mp hmean0 with h0 | h0
    · exact h0
    · exfalso
      rw [Nat.cast_eq_zero, List.length_map, List.length_eq_zero] at h0
      exact hne h0
  have := sum_nonneg_zero hnn hsum0 ((x - npMean l) ^ 2) (List.mem_map_of_mem _ hx)
  have hsq : (x - npMean l) ^ 2 = 0 := this
  have := sq_eq_zero_iff.mp hsq
  linarith

lemma getD_allEq {l : List ℝ} {c : ℝ} (h : ∀ x ∈ l, x = c) {i : ℕ} (hi : i < l.length) :
    l.getD i 0 = c := by
  rw [List.getD_eq_getElem?_getD, List.getElem?_eq_getElem hi]
  exact h _ (List.getElem_mem hi)

lemma insAsc_mem {x y : ℝ} : ∀ {l : List ℝ}, y ∈ insAsc x l → y = x ∨ y ∈ l := by
  intro l
  induction l with
  | nil => intro h; simpa [insAsc] using h
  | cons z zs ih =>
    intro h
    unfold insAsc at h
    by_cases hc : x ≤ z
    · rw [if_pos hc] at h
      rcases List.mem_cons.mp h with rfl | h
      · exact Or.inl rfl
      · exact Or.inr h
    · rw [if_neg hc] at h
      rcases List.mem_cons.mp h with rfl | h
      · exact Or.inr (List.mem_cons_self _ _)
      · rcases ih h with rfl | h
        · exact Or.inl rfl
        · exact Or.inr (List.mem_cons_of_mem z h)

lemma insAsc_length (x : ℝ) : ∀ (l : List ℝ), (insAsc x l).length = l.length + 1 := by
  intro l
  induction l with
  | nil => rfl
  | cons z zs ih =>
    unfold insAsc
    by_cases hc : x ≤ z
    · rw [if_pos hc]; rfl
    · rw [if_neg hc]
      simp [ih]

lemma sortAsc_allEq {l : List ℝ} {c : ℝ} (h : ∀ x ∈ l, x = c) :
    ∀ x ∈ sortAsc l, x = c := by
  unfold sortAsc
  suffices key : ∀ (l acc : List ℝ), (∀ x ∈ l, x = c) → (∀ x ∈ acc, x = c) →
      ∀ x ∈ l.foldl (fun acc x => insAsc x acc) acc, x = c by
    exact key l [] h (by simp)
  intro l
  induction l with
  | nil => intro acc _ hacc; simpa using hacc
  | cons y ys ih =>
    intro acc hl hacc
    have hyc : y = c := hl y (List.mem_cons_self y ys)
    refine ih (insAsc y acc) (fun x hx => hl x (List.mem_cons_of_mem y hx)) ?_
    intro x hx
    rcases insAsc_mem hx with rfl | hx
    · exact hyc
    · exact hacc x hx

lemma sortAsc_length (l : List ℝ) : (sortAsc l).length = l.length := by
  unfold sortAsc
  suffices key : ∀ (l acc : List ℝ),
      (l.foldl (fun acc x => insAsc x acc) acc).length = acc.length + l.length by
    simpa using key l []
  intro l
  induction l with
  | nil => intro acc; simp
  | cons y ys ih =>
    intro acc
    rw [List.foldl_cons, ih (insAsc y acc), insAsc_length, List.length_cons]
    omega

lemma npMedian_allEq {l : List ℝ} {c : ℝ} (hne : l ≠ []) (h : ∀ x ∈ l, x = c) :
    npMedian l = c := by
  unfold npMedian
  have hlen : l.length ≠ 0 := by
    simpa [List.length_eq_zero] using hne
  have hs := sortAsc_allEq h
  have hslen := sortAsc_length l
  rw [if_neg hlen]
  by_cases hpar : l.length % 2 = 1
  · rw [if_pos hpar]
    exact getD_allEq hs (by omega)
  · rw [if_neg hpar]
    rw [getD_allEq hs (by omega), getD_allEq hs (by omega)]
    ring

lemma mem_flattenDb {db : ℕ → ℕ → ℝ} {nF nT f t : ℕ} (hf : f < nF) (ht : t < nT) :
    db f t ∈ flattenDb db nF nT := by
  unfold flattenDb
  rw [List.mem_flatten]
  refine ⟨(List.range nT).map (fun t => db f t), ?_, ?_⟩
  · exact List.mem_map_of_mem _ (List.mem_range.mpr hf)
  · exact List.mem_map_of_mem _ (List.mem_range.mpr ht)

lemma foldl_max_ge_init (ys : List ℝ) : ∀ a : ℝ, a ≤ ys.foldl max a := by
  induction ys with
  | nil => intro a; simp
  | cons z zs ih =>
    intro a
    calc a ≤ max a z := le_max_left _ _
      _ ≤ zs.foldl max (max a z) := ih _

lemma foldl_max_ge_mem (ys : List ℝ) : ∀ (a x : ℝ), x ∈ ys → x ≤ ys.foldl max a := by
  induction ys with
  | nil => intro a x h; cases h
  | cons z zs ih =>
    intro a x h
    rcases List.mem_cons.mp h with rfl | h
    · calc x ≤ max a x := le_max_right _ _
        _ ≤ zs.foldl max (max a x) := foldl_max_ge_init _ _
    · exact ih _ x h

lemma npMax_ge_mem {l : List ℝ} {x : ℝ} (h : x ∈ l) : x ≤ npMax l := by
  cases l with
  | nil => cases h
  | cons y ys =>
    unfold npMax
    rcases List.mem_cons.mp h with rfl | h
    · exact foldl_max_ge_init ys x
    · exact foldl_max_ge_mem ys y x h

lemma mem_peakIndices {db : ℕ → ℕ → ℝ} {nF nT : ℕ} {τ : ℝ} {p : ℕ × ℕ}
    (h : p ∈ peakIndices db nF nT τ) :
    p.1 < nF ∧ p.2 < nT ∧ τ < db p.1 p.2 := by
  unfold peakIndices at h
  rw [List.mem_flatten] at h
  obtain ⟨row, hrow, hp⟩ := h
  obtain ⟨f, hf, rfl⟩ := List.mem_map.mp hrow
  obtain ⟨t, ht, rfl⟩ := List.mem_map.mp hp
  rw [List.mem_filter] at ht
  exact ⟨List.mem_range.mp hf, List.mem_range.mp ht.1, of_decide_eq_true ht.2⟩

lemma every5_sublist {β : Type} : ∀ l : List β, (every5 l).Sublist l
  | [] => by simp [every5]
  | x :: xs => by
    rw [every5]
    exact ((every5_sublist (xs.drop 4)).trans (List.drop_sublist 4 xs)).cons₂ x
termination_by l => l.length
decreasing_by
  simp only [List.length_drop, List.length_cons]
  omega

lemma flattenDb_allEq {db : ℕ → ℕ → ℝ} {nF nT : ℕ} {C : ℝ}
    (h : ∀ f < nF, ∀ t < nT, db f t = C) :
    ∀ x ∈ flattenDb db nF nT, x = C := by
  intro x hx
  unfold flattenDb at hx
  rw [List.mem_flatten] at hx
  obtain ⟨row, hrow, hxr⟩ := hx
  obtain ⟨f, hf, rfl⟩ := List.mem_map.mp hrow
  obtain ⟨t, ht, rfl⟩ := List.mem_map.mp hxr
  exact h f (List.mem_range.mp hf) t (List.mem_range.mp ht)

lemma peakIndices_const {db : ℕ → ℕ → ℝ} {nF nT : ℕ} {C : ℝ}
    (h : ∀ f < nF, ∀ t < nT, db f t = C) :
    peakIndices db nF nT (fastThreshold db nF nT) = [] := by
  rw [List.eq_nil_iff_forall_not_mem]
  intro p hp
  obtain ⟨hf, ht, hτ⟩ := mem_peakIndices hp
  have hflat := flattenDb_allEq h
  have hne : flattenDb db nF nT ≠ [] :=
    List.ne_nil_of_mem (mem_flattenDb hf ht)
  have hτC : fastThreshold db nF nT = C := by
    unfold fastThreshold fastStd
    rw [npMedian_allEq hne hflat, npStd_allEq hflat]
    ring
  rw [hτC, h p.1 hf p.2 ht] at hτ
  exact lt_irrefl _ hτ

lemma innerScan_mem (db : ℕ → ℕ → ℝ) (fa : List ℝ) (τ mx time : ℝ) (t : ℕ) :
    ∀ (fr : List ℝ) (f cnt : ℕ), f + fr.length ≤ fa.length →
      ∀ d ∈ (innerScan db fa τ mx time t fr f cnt).1,
        ∃ fi freq, fi < fa.length ∧ τ < db fi t ∧
          d = mkDetComplex db fa τ mx time t fi freq := by
  intro fr
  induction fr with
  | nil =>
    intro f cnt _ d hd
    simp [innerScan] at hd
  | cons freq rest ih =>
    intro f cnt hlen d hd
    rw [List.length_cons] at hlen
    simp only [innerScan] at hd
    by_cases hc : τ < db f t
    · rw [if_pos hc] at hd
      by_cases hb : 200 < cnt + 1
      · rw [if_pos hb] at hd
        rcases List.mem_singleton.mp hd with rfl
        exact ⟨f, freq, by omega, hc, rfl⟩
      · rw [if_neg hb] at hd
        rcases List.mem_cons.mp hd with rfl | hd
        · exact ⟨f, freq, by omega, hc, rfl⟩
        · exact ih (f + 1) (cnt + 1) (by omega) d hd
    · rw [if_neg hc] at hd
      exact ih (f + 1) cnt (by omega) d hd

lemma outerScan_mem (db : ℕ → ℕ → ℝ) (fa : List ℝ) (τ mx : ℝ) (nT : ℕ) :
    ∀ (ts : List ℝ) (t cnt : ℕ), t + ts.length ≤ nT →
      ∀ d ∈ (outerScan db fa τ mx ts t cnt).1,
        ∃ ti fi freq time, ti < nT ∧ fi < fa.length ∧ τ < db fi ti ∧
          d = mkDetComplex db fa τ mx time ti fi freq := by
  intro ts
  induction ts with
  | nil =>
    intro t cnt _ d hd
    simp [outerScan] at hd
  | cons time rest ih =>
    intro t cnt hlen d hd
    rw [List.length_cons] at hlen
    simp only [outerScan] at hd
    by_cases hb : 200 < (innerScan db fa τ mx time t fa 0 cnt).2
    · rw [if_pos hb] at hd
      obtain ⟨fi, freq, hfi, hτ, rfl⟩ :=
        innerScan_mem db fa τ mx time t fa 0 cnt (by omega) d hd
      exact ⟨t, fi, freq, time, by omega, hfi, hτ, rfl⟩
    · rw [if_neg hb] at hd
      rcases List.mem_append.mp hd with hd | hd
      · obtain ⟨fi, freq, hfi, hτ, rfl⟩ :=
          innerScan_mem db fa τ mx time t fa 0 cnt (by omega) d hd
        exact ⟨t, fi, freq, time, by omega, hfi, hτ, rfl⟩
      · obtain ⟨ti, fi, freq, time2, hti, hfi, hτ, rfl⟩ :=
          ih (t + 1) (innerScan db fa τ mx time t fa 0 cnt).2 (by omega) d hd
        exact ⟨ti, fi, freq, time2, hti, hfi, hτ, rfl⟩

lemma innerScan_nopass (db : ℕ → ℕ → ℝ) (fa : List ℝ) (τ mx time : ℝ) (t : ℕ) :
    ∀ (fr : List ℝ) (f cnt : ℕ), (∀ k < fr.length, ¬ τ < db (f + k) t) →
      innerScan db fa τ mx time t fr f cnt = ([], cnt) := by
  intro fr
  induction fr with
  | nil => intro f cnt _; rfl
  | cons freq rest ih =>
    intro f cnt h
    have h0 : ¬ τ < db f t := by
      have := h 0 (by simp)
      simpa using this
    simp only [innerScan]
    rw [if_neg h0]
    refine ih (f + 1) cnt ?_
    intro k hk
    have hsucc := h (k + 1) (by simpa using Nat.succ_lt_succ hk)
    have harith : f + (k + 1) = f + 1 + k := by omega
    rwa [harith] at hsucc

lemma outerScan_nopass (db : ℕ → ℕ → ℝ) (fa : List ℝ) (τ mx : ℝ) :
    ∀ (ts : List ℝ) (t cnt : ℕ), (∀ j < ts.length, ∀ k < fa.length, ¬ τ < db k (t + j)) →
      outerScan db fa τ mx ts t cnt = ([], cnt) := by
  intro ts
  induction ts with
  | nil => intro t cnt _; rfl
  | cons time rest ih =>
    intro t cnt h
    have hinner : innerScan db fa τ mx time t fa 0 cnt = ([], cnt) := by
      refine innerScan_nopass db fa τ mx time t fa 0 cnt ?_
      intro k hk
      have := h 0 (by simp) k hk
      simpa using this
    have hrest : outerScan db fa τ mx rest (t + 1) cnt = ([], cnt) := by
      refine ih (t + 1) cnt ?_
      intro j hj k hk
      have hsucc := h (j + 1) (by simpa using Nat.succ_lt_succ hj) k hk
      have harith : t + (j + 1) = t + 1 + j := by omega
      rwa [harith] at hsucc
    simp only [outerScan, hinner]
    by_cases hb : 200 < cnt
    · rw [if_pos hb]
    · rw [if_neg hb, hrest]
      rfl

lemma getD_range_map (g : ℕ → ℝ) (n i : ℕ) (hi : i < n) :
    ((List.range n).map g).getD i 0 = g i := by
  rw [List.getD_eq_getElem?_getD, List.getElem?_map, List.getElem?_range hi]
  rfl

/-- C5 (counterexample): for the real path the claimed formulas fail at a
16-bit-style buffer of 10240 samples: the claim predicts
`floor((N-window)/hop)+1 = 17` frames and `times[1] = 1*hop/fs = 512`,
but scipy (called with `noverlap = window/4`, which is the *overlap*) steps
by `window - window/4 = 1536`, giving 6 frames and `times[1] = 2560`. -/
theorem c5_counterexample :
    framesFast 10240 ≠ (10240 - windowSizeFast 10240) / (windowSizeFast 10240 / 4) + 1 ∧
    (timesFast 10240 1).getD 1 0 ≠ ((1 * (windowSizeFast 10240 / 4) : ℕ) : ℝ) / 1 := by
  constructor
  · decide
  · have h6 : framesFast 10240 = 6 := rfl
    unfold timesFast
    rw [h6]
    rw [getD_range_map _ 6 1 (by norm_num)]
    have hw : windowSizeFast 10240 = 2048 := rfl
    have hs : stepFast 10240 = 1536 := rfl
    rw [hw, hs]
    norm_num

/-- C5 (amended): for the complex path the claimed formulas hold exactly
(`num_windows = floor((N-4096)/1024)+1`, `times[i] = i*1024/fs`, valid for
`N ≥ 4096`; the Python floor division on ints agrees with the natural-number
formula there).  For the real path, scipy is called with `noverlap =
window/4`, the *overlap*, so the actual step is `window - window/4`; the
frame count is `floor((N - window)/(window - window/4)) + 1` and the time
axis is window-centred with true division:
`times[j] = (window/2 + j*step)/fs`, half-integral for odd windows. -/
theorem c5_amended (N : ℕ) (fs : ℝ) (hN : 4096 ≤ N) (i : ℕ)
    (hi : i < numWindowsComplex N) :
    (numWindowsComplex N : ℤ) = numWindowsComplexZ N ∧
    numWindowsComplex N = (N - 4096) / 1024 + 1 ∧
    (timesComplex (numWindowsComplex N) fs).getD i 0 = (i : ℝ) * 1024 / fs ∧
    framesFast N = (N - windowSizeFast N) / (windowSizeFast N - windowSizeFast N / 4) + 1 ∧
    ∀ j < framesFast N, (timesFast N fs).getD j 0
      = ((windowSizeFast N : ℝ) / 2 + (j : ℝ) * stepFast N) / fs := by
  refine ⟨?_, rfl, ?_, rfl, ?_⟩
  · unfold numWindowsComplex numWindowsComplexZ
    have hcast : ((N : ℤ) - 4096) = ((N - 4096 : ℕ) : ℤ) := by
      rw [Nat.cast_sub hN]
      norm_num
    rw [hcast]
    push_cast [Int.ofNat_ediv]
    norm_num
  · unfold timesComplex
    rw [getD_range_map _ _ i hi]
  · intro j hj
    unfold timesFast
    rw [getD_range_map _ _ j hj]

/-- C5 (witness): the amended formulas at `N = 8192`, `fs = 2`, `i = 2`. -/
theorem c5_amended_witness :
    (numWindowsComplex 8192 : ℤ) = numWindowsComplexZ 8192 ∧
    numWindowsComplex 8192 = (8192 - 4096) / 1024 + 1 ∧
    (timesComplex (numWindowsComplex 8192) 2).getD 2 0 = (2 : ℝ) * 1024 / 2 ∧
    framesFast 8192 = (8192 - windowSizeFast 8192)
      / (windowSizeFast 8192 - windowSizeFast 8192 / 4) + 1 ∧
    ∀ j < framesFast 8192, (timesFast 8192 2).getD j 0
      = ((windowSizeFast 8192 : ℝ) / 2 + (j : ℝ) * stepFast 8192) / 2 := by
  have h := c5_amended 8192 2 (by norm_num) 2 (by decide)
  simpa using h

/-! ## Claims C6 and C7: zero buffers, flat spectrograms and confidence -/

lemma scanComplexCandidates_const {db : ℕ → ℕ → ℝ} {freqs times : List ℝ} {C : ℝ}
    (h : ∀ f < freqs.length, ∀ t < times.length, db f t = C) :
    scanComplexCandidates db freqs times = [] := by
  unfold scanComplexCandidates
  rw [outerScan_nopass db freqs _ _ times 0 0 ?_]
  intro j hj k hk
  have hflat := flattenDb_allEq h
  have hne : flattenDb db freqs.length times.length ≠ [] :=
    List.ne_nil_of_mem (mem_flattenDb hk hj)
  have hτC : complexThreshold db freqs.length times.length = C := by
    unfold complexThreshold
    rw [npMean_allEq hne hflat, npStd_allEq hflat]
    ring
  rw [hτC]
  have hcell : db k (0 + j) = C := h k hk (0 + j) (by omega)
  rw [hcell]
  exact lt_irrefl C

lemma detect_fast_from_db_const {db : ℕ → ℕ → ℝ} {freqs times : List ℝ} {fs : ℝ} {w : ℕ}
    {C : ℝ} (h : ∀ f < freqs.length, ∀ t < times.length, db f t = C) :
    fastCandidateCells db freqs.length times.length = [] ∧
    detect_fast_from_db db freqs times fs w = [] := by
  have hcells : fastCandidateCells db freqs.length times.length = [] := by
    unfold fastCandidateCells
    rw [peakIndices_const h]
    simp [every5]
  refine ⟨hcells, ?_⟩
  unfold detect_fast_from_db scanFast
  rw [hcells]
  simp [cap100, filter_nearby_detections, dedupCore]

lemma detect_complex_from_db_const {db : ℕ → ℕ → ℝ} {freqs times : List ℝ} {C : ℝ}
    (h : ∀ f < freqs.length, ∀ t < times.length, db f t = C) :
    detect_complex_from_db db freqs times = [] := by
  unfold detect_complex_from_db
  rw [scanComplexCandidates_const h]
  simp [filter_nearby_detections, dedupCore]

lemma dftPower_zero {x : ℕ → ℂ} {w k : ℕ} (h : ∀ n, x n = 0) : dftPower x w k = 0 := by
  unfold dftPower
  rw [Finset.sum_eq_zero]
  · exact Complex.normSq_zero
  · intro n _
    rw [h n, zero_mul]

lemma segMean_zero {audio : ℕ → ℝ} {start w : ℕ} (h : ∀ i, audio i = 0) :
    segMean audio start w = 0 := by
  unfold segMean
  rw [Finset.sum_eq_zero]
  · simp
  · intro n _
    exact h _

lemma specFastPower_zero {audio : ℕ → ℝ} {fs : ℝ} {N f t : ℕ} (h : ∀ i, audio i = 0) :
    specFastPower audio fs N f t = 0 := by
  unfold specFastPower
  have hterm : ∀ n,
      (((audio (t * stepFast N + n) - segMean audio (t * stepFast N) (windowSizeFast N))
        * hannPeriodic (windowSizeFast N) n : ℝ) : ℂ) = 0 := by
    intro n
    rw [h, segMean_zero h]
    norm_num
  dsimp only
  rw [dftPower_zero hterm]
  simp

lemma specComplexPower_zero {data : ℕ → ℂ} {t f : ℕ} (h : ∀ i, data i = 0) :
    specComplexPower data t f = 0 := by
  unfold specComplexPower
  apply dftPower_zero
  intro n
  rw [h]
  exact zero_mul _

lemma fastDb_const {audio : ℕ → ℝ} {N : ℕ} {fs : ℝ} (h : ∀ i, audio i = 0) (f t : ℕ) :
    fastDb audio N fs f t
      = max (-100) (min 50 (10 * Real.logb 10 (0 + 1e-10))) := by
  unfold fastDb
  rw [specFastPower_zero h]

lemma complexDb_const {data : ℕ → ℂ} (h : ∀ i, data i = 0) (f t : ℕ) :
    complexDb data f t = 10 * Real.logb 10 (0 + 1e-10) := by
  unfold complexDb
  rw [specComplexPower_zero h]

/-- C6: for an all-zero sample buffer both detection paths return the empty
detection list — on the epsilon-floored dB spectrogram, which is constant,
the strict `power > threshold` test never holds — and the candidate-cell
lists are empty, so the classifier (invoked once per emitted candidate) is
never invoked. -/
theorem c6_zero_buffer (audio : ℕ → ℝ) (data : ℕ → ℂ) (N M : ℕ) (fs fs2 : ℝ)
    (ha : ∀ i, audio i = 0) (hd : ∀ i, data i = 0) :
    fastCandidateCells (fastDb audio N fs) (freqsFast N fs).length (timesFast N fs).length
        = [] ∧
    detect_rfi_patterns_fast audio N fs = [] ∧
    complexRawCandidates data M fs2 = [] ∧
    detect_rfi_patterns_complex data M fs2 = [] := by
  obtain ⟨h1, h2⟩ := @detect_fast_from_db_const (fastDb audio N fs) (freqsFast N fs)
    (timesFast N fs) fs (windowSizeFast N) _ (fun f _ t _ => fastDb_const ha f t)
  have h3 : complexRawCandidates data M fs2 = [] := by
    unfold complexRawCandidates
    by_cases hM : M < 4096
    · rw [if_pos hM]
    · rw [if_neg hM]
      exact scanComplexCandidates_const (fun f _ t _ => complexDb_const hd f t)
  refine ⟨h1, h2, h3, ?_⟩
  unfold detect_rfi_patterns_complex
  rw [h3]
  simp [filter_nearby_detections, dedupCore]

/-- C6 (witness): both paths on concrete all-zero buffers. -/
theorem c6_zero_buffer_witness :
    fastCandidateCells (fastDb (fun _ => 0) 8192 1) (freqsFast 8192 1).length
        (timesFast 8192 1).length = [] ∧
    detect_rfi_patterns_fast (fun _ => 0) 8192 1 = [] ∧
    complexRawCandidates (fun _ => 0) 8192 1 = [] ∧
    detect_rfi_patterns_complex (fun _ => 0) 8192 1 = [] :=
  c6_zero_buffer (fun _ => 0) (fun _ => 0) 8192 8192 1 1 (fun _ => rfl) (fun _ => rfl)

/-- C7: every emitted detection of either path (from the dB spectrogram on)
has confidence in `[0, 1]` — real path `min((power-threshold)/std, 1)`,
complex path `min(1, (power-threshold)/(max-threshold))` — and on a flat
spectrogram (zero standard deviation, hence zero dynamic range) no cell
passes the strict threshold, so both paths return the empty list and no
confidence is ever computed (no NaN or error). -/
theorem c7_confidence (db : ℕ → ℕ → ℝ) (freqs times : List ℝ) (fs : ℝ) (w : ℕ) :
    (∀ d ∈ detect_fast_from_db db freqs times fs w,
      0 ≤ d.confidence ∧ d.confidence ≤ 1) ∧
    (∀ d ∈ detect_complex_from_db db freqs times,
      0 ≤ d.confidence ∧ d.confidence ≤ 1) ∧
    (fastStd db freqs.length times.length = 0 →
      detect_fast_from_db db freqs times fs w = []) ∧
    (npStd (flattenDb db freqs.length times.length) = 0 →
      detect_complex_from_db db freqs times = []) := by
  refine ⟨?_, ?_, ?_, ?_⟩
  · intro d hd
    have hd1 : d ∈ cap100 (scanFast db freqs times fs w) :=
      mem_dedupCore _ _ _ hd
    have hd2 : d ∈ scanFast db freqs times fs w := by
      unfold cap100 at hd1
      by_cases hcl : 100 < (scanFast db freqs times fs w).length
      · rw [if_pos hcl] at hd1
        exact (sortByPowerDesc_perm _).mem_iff.mp ((List.take_sublist _ _).mem hd1)
      · rwa [if_neg hcl] at hd1
    unfold scanFast at hd2
    obtain ⟨c, hc, rfl⟩ := List.mem_map.mp hd2
    have hc' : c ∈ peakIndices db freqs.length times.length
        (fastThreshold db freqs.length times.length) := by
      unfold fastCandidateCells at hc
      exact (every5_sublist _).mem hc
    obtain ⟨hf, ht, hτ⟩ := mem_peakIndices hc'
    have hσ : 0 < fastStd db freqs.length times.length := by
      have hσnn : (0 : ℝ) ≤ fastStd db freqs.length times.length := Real.sqrt_nonneg _
      rcases lt_or_eq_of_le hσnn with hlt | heq
      · exact hlt
      · exfalso
        have hstd0 : fastStd db freqs.length times.length = 0 := heq.symm
        have hall := npStd_zero_allEq hstd0
        have hne : flattenDb db freqs.length times.length ≠ [] :=
          List.ne_nil_of_mem (mem_flattenDb hf ht)
        have hτeq : fastThreshold db freqs.length times.length
            = npMean (flattenDb db freqs.length times.length) := by
          unfold fastThreshold
          rw [npMedian_allEq hne hall, hstd0]
          ring
        have hcell := hall _ (mem_flattenDb hf ht)
        rw [hτeq, hcell] at hτ
        exact lt_irrefl _ hτ
    have hratio : 0 < (db c.1 c.2 - fastThreshold db freqs.length times.length)
        / fastStd db freqs.length times.length :=
      div_pos (by linarith) hσ
    unfold mkDetFast
    simp only
    constructor
    · exact le_min (le_of_lt hratio) zero_le_one
    · exact min_le_right _ _
  · intro d hd
    have hd1 : d ∈ scanComplexCandidates db freqs times :=
      mem_dedupCore _ _ _ hd
    unfold scanComplexCandidates at hd1
    obtain ⟨ti, fi, freq, time, hti, hfi, hτ, rfl⟩ :=
      outerScan_mem db freqs _ _ times.length times 0 0 (by omega) d hd1
    have hmem : db fi ti ∈ flattenDb db freqs.length times.length :=
      mem_flattenDb hfi hti
    have hmx := npMax_ge_mem hmem
    have hden : 0 < npMax (flattenDb db freqs.length times.length)
        - complexThreshold db freqs.length times.length := by linarith
    have hratio : 0 < (db fi ti - complexThreshold db freqs.length times.length)
        / (npMax (flattenDb db freqs.length times.length)
            - complexThreshold db freqs.length times.length) :=
      div_pos (by linarith) hden
    unfold mkDetComplex
    simp only
    constructor
    · exact le_min zero_le_one (le_of_lt hratio)
    · exact min_le_left _ _
  · intro hσ0
    have hall := npStd_zero_allEq hσ0
    exact (detect_fast_from_db_const
      (fun f hf t ht => hall _ (mem_flattenDb hf ht))).2
  · intro hσ0
    have hall := npStd_zero_allEq hσ0
    exact detect_complex_from_db_const
      (fun f hf t ht => hall _ (mem_flattenDb hf ht))

/-- C7 (witness): flat spectrograms yield empty outputs for both paths. -/
theorem c7_confidence_witness :
    detect_fast_from_db (fun _ _ => 0) [0] [0] 1 1 = [] ∧
    detect_complex_from_db (fun _ _ => 0) [0] [0] = [] := by
  have h := c7_confidence (fun _ _ => (0 : ℝ)) [0] [0] 1 1
  refine ⟨h.2.2.1 ?_, h.2.2.2 ?_⟩
  · unfold fastStd
    exact npStd_allEq (flattenDb_allEq (fun f _ t _ => rfl))
  · exact npStd_allEq (flattenDb_allEq (fun f _ t _ => rfl))

/-- C10 (witness): the guarantees at the concrete environment `ce10Env`. -/
theorem c10_no_queue_row_witness :
    NotifyEvent.started ∉ (process_recording ce10Env).events ∧
    NotifyEvent.failedEv ∉ (process_recording ce10Env).events ∧
    (process_recording ce10Env).statusHistory = [QStatus.pending] ∧
    (ce10Env.finalCommitRaises = false →
      (process_recording ce10Env).persisted = analyze_audio_file ce10Env ∧
      (process_recording ce10Env).processedPersisted = true ∧
      (process_recording ce10Env).events
        = progressEvents (analyze_audio_file ce10Env).length
            ++ [NotifyEvent.completedEv (analyze_audio_file ce10Env).length
                  (decide (analyze_audio_file ce10Env ≠ []))]) :=
  c10_no_queue_row ce10Env rfl rfl

end RFI
